import Mathlib

/-!
# Financial operations (`backend/wasm/financial_ops.cpp`)

The two exported functions `calculate_total_with_fees` and
`calculate_discounted_price` compute on C++ `double`s.  The embedding below
models a `double` as an IEEE-754 binary64 value: a NaN, a signed infinity, or a
signed finite magnitude.  A finite magnitude is stored as the natural number
`z` of units of `2 ^ (-1074)` (the smallest subnormal), so every finite double
is `± z * 2 ^ (-1074)` for exactly one `z`, and sums and comparisons of finite
doubles are sums and comparisons of integers.  Every arithmetic operation
computes the exact result as a fraction of naturals and rounds it once, to
nearest, ties to even, as the WebAssembly target of the source does.
-/

set_option exponentiation.threshold 16384

/-! ## Bit length and rounding of fractions -/

/-- Least `j ≥ k` with `n < 2 ^ 2 ^ j`, searched upwards from `k`. -/
def bitDepth : Nat → Nat → Nat → Nat
  | 0, k, _ => k
  | fuel + 1, k, n => if n < 2 ^ 2 ^ k then k else bitDepth fuel (k + 1) n

/-- Number of binary digits of `n`, for `n < 2 ^ 2 ^ k`. -/
def bitLenAux : Nat → Nat → Nat
  | 0, n => if n = 0 then 0 else 1
  | k + 1, n =>
    if n < 2 ^ 2 ^ k then bitLenAux k n else 2 ^ k + bitLenAux k (n / 2 ^ 2 ^ k)

/-- Number of binary digits of `n` (`0` for `n = 0`). -/
def bitLen (n : Nat) : Nat := bitLenAux (bitDepth n 0 n) n

/-- The fraction `n / d` rounded to the nearest natural number, ties to even. -/
def rne (n d : Nat) : Nat :=
  let q := n / d
  let r := n % d
  if 2 * r < d then q else if d < 2 * r then q + 1 else if q % 2 = 0 then q else q + 1

/-- The fraction `n / d` rounded to 53 significant binary digits (to a whole
number where it has fewer), to nearest, ties to even. -/
def roundMag (n d : Nat) : Nat :=
  let sh := bitLen (n / d) - 53
  rne n (d * 2 ^ sh) * 2 ^ sh

/-! ## Doubles -/

/-- An IEEE-754 binary64 value.  `fin neg z` is `(-1) ^ neg * z * 2 ^ (-1074)`. -/
inductive F64 where
  | nan : F64
  | inf (neg : Bool) : F64
  | fin (neg : Bool) (z : Nat) : F64
  deriving DecidableEq, Repr

namespace F64

/-- The signed number of units of a finite double. -/
def toInt (neg : Bool) (z : Nat) : Int := if neg then -(z : Int) else (z : Int)

/-- The magnitudes `z` that a finite double can have: below `2 ^ 1024` in value
and a multiple of the unit in the last place of its binade. -/
def IsDouble : F64 → Prop
  | nan => True
  | inf _ => True
  | fin _ z => z < 2 ^ 2098 ∧ z % 2 ^ (bitLen z - 53) = 0

instance : DecidablePred IsDouble := fun x =>
  match x with
  | nan => isTrue trivial
  | inf _ => isTrue trivial
  | fin _ z => inferInstanceAs (Decidable (z < 2 ^ 2098 ∧ z % 2 ^ (bitLen z - 53) = 0))

/-- Round the exact magnitude `n / d` units (`d > 0`) to a double of sign `neg`:
to nearest, ties to even, overflowing to infinity from `2 ^ 1024` on. -/
def roundFrac (neg : Bool) (n d : Nat) : F64 :=
  if 2 ^ 2098 ≤ roundMag n d then inf neg else fin neg (roundMag n d)

/-- The double written as the decimal or integer literal `n / d`. -/
def ofRatio (neg : Bool) (n d : Nat) : F64 := roundFrac neg (n * 2 ^ 1074) d

/-- The literal `0.0` (also the `int` literal `0` converted to `double`). -/
def zero : F64 := fin false 0

/-- The literal `100.0` (also the `int` literal `100` converted to `double`). -/
def hundred : F64 := fin false (100 * 2 ^ 1074)

/-- Test for NaN. -/
def isNaN : F64 → Bool
  | nan => true
  | _ => false

/-- Unary minus. -/
def neg : F64 → F64
  | nan => nan
  | inf s => inf (!s)
  | fin s z => fin (!s) z

/-- Addition of doubles, `x + y`. -/
def add : F64 → F64 → F64
  | nan, _ => nan
  | _, nan => nan
  | inf s, inf t => if s = t then inf s else nan
  | inf s, fin _ _ => inf s
  | fin _ _, inf t => inf t
  | fin s a, fin t b =>
    let r := toInt s a + toInt t b
    if r = 0 then fin (s && t) 0 else roundFrac (decide (r < 0)) r.natAbs 1

/-- Subtraction of doubles, `x - y`. -/
def sub (x y : F64) : F64 := add x (neg y)

/-- Multiplication of doubles, `x * y`. -/
def mul : F64 → F64 → F64
  | nan, _ => nan
  | _, nan => nan
  | inf s, inf t => inf (xor s t)
  | inf s, fin t b => if b = 0 then nan else inf (xor s t)
  | fin s a, inf t => if a = 0 then nan else inf (xor s t)
  | fin s a, fin t b => roundFrac (xor s t) (a * b) (2 ^ 1074)

/-- Division of doubles, `x / y`. -/
def div : F64 → F64 → F64
  | nan, _ => nan
  | _, nan => nan
  | inf _, inf _ => nan
  | inf s, fin t _ => inf (xor s t)
  | fin s _, inf t => fin (xor s t) 0
  | fin s a, fin t b =>
    if b = 0 then (if a = 0 then nan else inf (xor s t))
    else roundFrac (xor s t) (a * 2 ^ 1074) b

/-- The library function `std::round`: the nearest integer, halfway cases away
from zero, computed as `floor (|x| + 1/2)` with the sign of `x`. -/
def round : F64 → F64
  | nan => nan
  | inf s => inf s
  | fin s z => fin s ((2 * z + 2 ^ 1074) / 2 ^ 1075 * 2 ^ 1074)

/-- The comparison `x <= y`. -/
def le : F64 → F64 → Bool
  | nan, _ => false
  | _, nan => false
  | inf s, inf t => s || !t
  | inf s, fin _ _ => s
  | fin _ _, inf t => !t
  | fin s a, fin t b => decide (toInt s a ≤ toInt t b)

/-- The comparison `x < y`. -/
def lt : F64 → F64 → Bool
  | nan, _ => false
  | _, nan => false
  | inf s, inf t => s && !t
  | inf s, fin _ _ => s
  | fin _ _, inf t => !t
  | fin s a, fin t b => decide (toInt s a < toInt t b)

/-- The comparison `x >= y`. -/
def ge (x y : F64) : Bool := le y x

/-- Equality of two doubles as numbers: both NaN, the same infinity, or the same
finite value, a zero of either sign being the same number. -/
def sameValue : F64 → F64 → Bool
  | nan, nan => true
  | inf s, inf t => s == t
  | fin s a, fin t b => decide (toInt s a = toInt t b)
  | _, _ => false

end F64

/-! ## The two exported functions -/

/-- Source: `calculate_total_with_fees` (financial_ops.cpp, lines 10-16). -/
def calculate_total_with_fees (base_price tax_rate processing_fee : F64) : F64 :=
  let tax := F64.mul base_price (F64.div tax_rate F64.hundred)
  let fee := F64.mul base_price (F64.div processing_fee F64.hundred)
  F64.div (F64.round (F64.mul (F64.add (F64.add base_price tax) fee) F64.hundred)) F64.hundred

/-- Source: `calculate_discounted_price` (financial_ops.cpp, lines 19-25). -/
def calculate_discounted_price (original_price discount_percent : F64) : F64 :=
  if F64.le discount_percent F64.zero then original_price
  else if F64.ge discount_percent F64.hundred then F64.zero
  else
    let discount := F64.mul original_price (F64.div discount_percent F64.hundred)
    F64.div (F64.round (F64.mul (F64.sub original_price discount) F64.hundred)) F64.hundred

/-! ## The contract as the specification words it -/

namespace Spec

/-- Round half away from zero (glossary of the specification): the nearest
integer, a value exactly halfway between two integers going to the one farther
from zero. -/
def roundHalfAway : F64 → F64
  | F64.nan => F64.nan
  | F64.inf s => F64.inf s
  | F64.fin s z =>
    if 2 * (z % 2 ^ 1074) < 2 ^ 1074 then F64.fin s (z / 2 ^ 1074 * 2 ^ 1074)
    else F64.fin s ((z / 2 ^ 1074 + 1) * 2 ^ 1074)

/-- Rounding to two decimals, `round(x * 100.0) / 100.0`. -/
def roundCents (x : F64) : F64 :=
  F64.div (roundHalfAway (F64.mul x F64.hundred)) F64.hundred

/-- Section 4.1 of the specification: `tax`, `fee` and `result`. -/
def TotalWithFees (basePrice taxRatePercent processingFeePercent : F64) : F64 :=
  let tax := F64.mul basePrice (F64.div taxRatePercent F64.hundred)
  let fee := F64.mul basePrice (F64.div processingFeePercent F64.hundred)
  F64.div (roundHalfAway (F64.mul (F64.add (F64.add basePrice tax) fee) F64.hundred)) F64.hundred

/-- Section 4.2 of the specification, the branch for `0 < discountPercent < 100`. -/
def DiscountedMid (originalPrice discountPercent : F64) : F64 :=
  let discount := F64.mul originalPrice (F64.div discountPercent F64.hundred)
  F64.div (roundHalfAway (F64.mul (F64.sub originalPrice discount) F64.hundred)) F64.hundred

end Spec

/-! ## Calls in an explicit machine state

To state what a call can depend on, the two functions are also embedded as
state transformers.  The state holds every variable a call could reach: the
variables with static storage duration (`globals`, of which the source declares
none, so their contents are arbitrary) and the frame of the running call.  An
identifier denotes the local of that name when the call has declared one, and
the global otherwise, as in C++. -/

/-- The variables a running call can reach. -/
structure Machine where
  /-- The variables with static storage duration. -/
  globals : String → F64
  /-- The parameters and locals of the running call. -/
  frame : String → Option F64

namespace Machine

/-- The value denoted by the identifier `x`. -/
def read (m : Machine) (x : String) : F64 :=
  match m.frame x with
  | some v => v
  | none => m.globals x

/-- The declaration `double x = v;` (also the binding of a parameter). -/
def declare (m : Machine) (x : String) (v : F64) : Machine :=
  { globals := m.globals, frame := fun y => if y = x then some v else m.frame y }

/-- Entry into a function: the callee starts with an empty frame. -/
def enter (m : Machine) : Machine :=
  { globals := m.globals, frame := fun _ => none }

/-- Return to the caller: the frame of the callee is dropped. -/
def leave (caller callee : Machine) : Machine :=
  { globals := callee.globals, frame := caller.frame }

/-- Source: `calculate_total_with_fees` (financial_ops.cpp, lines 10-16), statement
by statement; returns the value and the state after the call. -/
def calculate_total_with_fees (m : Machine) (base_price tax_rate processing_fee : F64) :
    F64 × Machine :=
  let m0 := ((m.enter.declare "base_price" base_price).declare "tax_rate" tax_rate).declare
    "processing_fee" processing_fee
  let m1 := m0.declare "tax"
    (F64.mul (m0.read "base_price") (F64.div (m0.read "tax_rate") F64.hundred))
  let m2 := m1.declare "fee"
    (F64.mul (m1.read "base_price") (F64.div (m1.read "processing_fee") F64.hundred))
  (F64.div (F64.round (F64.mul
      (F64.add (F64.add (m2.read "base_price") (m2.read "tax")) (m2.read "fee"))
      F64.hundred)) F64.hundred,
    leave m m2)

/-- Source: `calculate_discounted_price` (financial_ops.cpp, lines 19-25), statement
by statement; returns the value and the state after the call. -/
def calculate_discounted_price (m : Machine) (original_price discount_percent : F64) :
    F64 × Machine :=
  let m0 := (m.enter.declare "original_price" original_price).declare
    "discount_percent" discount_percent
  if F64.le (m0.read "discount_percent") F64.zero then (m0.read "original_price", leave m m0)
  else if F64.ge (m0.read "discount_percent") F64.hundred then (F64.zero, leave m m0)
  else
    let m1 := m0.declare "discount"
      (F64.mul (m0.read "original_price") (F64.div (m0.read "discount_percent") F64.hundred))
    (F64.div (F64.round (F64.mul
        (F64.sub (m1.read "original_price") (m1.read "discount")) F64.hundred)) F64.hundred,
      leave m m1)

end Machine

/-! ## Bit length -/

theorem bitDepth_spec (fuel : Nat) : ∀ k n, n ≤ fuel + k → n < 2 ^ 2 ^ bitDepth fuel k n := by
  induction fuel with
  | zero =>
    intro k n h
    simp only [bitDepth]
    have h1 : n < 2 ^ n := Nat.lt_two_pow n
    have h2 : 2 ^ n ≤ 2 ^ k := Nat.pow_le_pow_right (by norm_num) (by omega)
    have h3 : 2 ^ k ≤ 2 ^ 2 ^ k :=
      Nat.pow_le_pow_right (by norm_num) (Nat.le_of_lt (Nat.lt_two_pow k))
    omega
  | succ fuel ih =>
    intro k n h
    simp only [bitDepth]
    split
    · assumption
    · exact ih (k + 1) n (by omega)

theorem bitLenAux_spec (k : Nat) : ∀ n, n < 2 ^ 2 ^ k →
    n < 2 ^ bitLenAux k n ∧ (n ≠ 0 → 2 ^ bitLenAux k n ≤ 2 * n) ∧
      (n = 0 → bitLenAux k n = 0) := by
  induction k with
  | zero =>
    intro n h
    have h2 : n < 2 := by simpa using h
    rcases Nat.eq_zero_or_pos n with h0 | h0
    · subst h0; simp [bitLenAux]
    · have h1 : n = 1 := by omega
      subst h1; simp [bitLenAux]
  | succ k ih =>
    intro n h
    have hB : 0 < 2 ^ 2 ^ k := Nat.pow_pos (by norm_num)
    have hsq : 2 ^ 2 ^ (k + 1) = 2 ^ 2 ^ k * 2 ^ 2 ^ k := by
      rw [← pow_add]; congr 1; rw [pow_succ]; omega
    simp only [bitLenAux]
    split
    · rename_i hlt; exact ih n hlt
    · rename_i hge
      have hge2 : 2 ^ 2 ^ k ≤ n := Nat.le_of_not_lt hge
      have hm : n / 2 ^ 2 ^ k < 2 ^ 2 ^ k := by
        rw [Nat.div_lt_iff_lt_mul hB]; rw [hsq] at h; exact h
      have hm0 : n / 2 ^ 2 ^ k ≠ 0 := by
        have : 0 < n / 2 ^ 2 ^ k := Nat.div_pos hge2 hB
        omega
      obtain ⟨h1, h2, _⟩ := ih _ hm
      have h2b := h2 hm0
      have hdm := Nat.div_add_mod n (2 ^ 2 ^ k)
      have hmod := Nat.mod_lt n hB
      rw [pow_add]
      generalize n / 2 ^ 2 ^ k = m at *
      generalize bitLenAux k m = L at *
      generalize 2 ^ 2 ^ k = B at *
      generalize 2 ^ L = P at *
      refine ⟨?_, ?_, ?_⟩
      · have : B * (m + 1) ≤ B * P := Nat.mul_le_mul_left B h1
        have e : B * (m + 1) = B * m + B := by ring
        omega
      · intro _
        have : B * P ≤ B * (2 * m) := Nat.mul_le_mul_left B h2b
        have e : B * (2 * m) = 2 * (B * m) := by ring
        omega
      · intro hn; omega

theorem bitLen_spec (n : Nat) :
    n < 2 ^ bitLen n ∧ (n ≠ 0 → 2 ^ bitLen n ≤ 2 * n) ∧ (n = 0 → bitLen n = 0) :=
  bitLenAux_spec _ n (bitDepth_spec n 0 n (by omega))

theorem lt_two_pow_bitLen (n : Nat) : n < 2 ^ bitLen n := (bitLen_spec n).1

theorem bitLen_zero : bitLen 0 = 0 := (bitLen_spec 0).2.2 rfl

theorem two_pow_bitLen_le {n : Nat} (h : n ≠ 0) : 2 ^ bitLen n ≤ 2 * n :=
  (bitLen_spec n).2.1 h

theorem bitLen_le_of_lt {n j : Nat} (h : n < 2 ^ j) : bitLen n ≤ j := by
  rcases Nat.eq_zero_or_pos n with h0 | h0
  · subst h0; rw [bitLen_zero]; omega
  · have h1 := two_pow_bitLen_le (Nat.pos_iff_ne_zero.mp h0)
    have h2 : 2 ^ bitLen n < 2 ^ (j + 1) := by rw [pow_succ]; omega
    have := (Nat.pow_lt_pow_iff_right (by norm_num : 1 < 2)).mp h2
    omega

theorem lt_bitLen_of_le {n j : Nat} (h : 2 ^ j ≤ n) : j < bitLen n := by
  have h1 := lt_two_pow_bitLen n
  exact (Nat.pow_lt_pow_iff_right (by norm_num : 1 < 2)).mp (Nat.lt_of_le_of_lt h h1)

theorem bitLen_mono {a b : Nat} (h : a ≤ b) : bitLen a ≤ bitLen b :=
  bitLen_le_of_lt (Nat.lt_of_le_of_lt h (lt_two_pow_bitLen b))

/-! ## Rounding a fraction to the nearest natural number -/

theorem rne_spec (n d : Nat) (hd : 0 < d) :
    2 * (rne n d * d) ≤ 2 * n + d ∧ 2 * n ≤ 2 * (rne n d * d) + d ∧
      (2 * (rne n d * d) = 2 * n + d → rne n d % 2 = 0) ∧
      (2 * n = 2 * (rne n d * d) + d → rne n d % 2 = 0) := by
  have hdm := Nat.div_add_mod n d
  have hmod := Nat.mod_lt n hd
  have e1 : (n / d + 1) * d = d * (n / d) + d := by ring
  have e2 : n / d * d = d * (n / d) := by ring
  simp only [rne]
  split
  · rw [e2]; refine ⟨?_, ?_, ?_, ?_⟩ <;> omega
  · split
    · rw [e1]; refine ⟨?_, ?_, ?_, ?_⟩ <;> omega
    · split
      · rw [e2]; refine ⟨?_, ?_, ?_, ?_⟩ <;> omega
      · rw [e1]; refine ⟨?_, ?_, ?_, ?_⟩ <;> omega

theorem rne_exact (m d : Nat) (hd : 0 < d) : rne (m * d) d = m := by
  have h1 : m * d / d = m := Nat.mul_div_cancel m hd
  have h2 : m * d % d = 0 := Nat.mul_mod_left m d
  simp only [rne, h1, h2]
  rw [if_pos (by omega)]

theorem rne_scale (n d c : Nat) (hc : 0 < c) : rne (n * c) (d * c) = rne n d := by
  have h1 : n * c / (d * c) = n / d := Nat.mul_div_mul_right n d hc
  have h2 : n * c % (d * c) = n % d * c := Nat.mul_mod_mul_right c n d
  have h3 : (2 * (n % d * c) < d * c) = (2 * (n % d) < d) := by
    rw [show 2 * (n % d * c) = (2 * (n % d)) * c by ring]
    exact propext (Nat.mul_lt_mul_right hc)
  have h4 : (d * c < 2 * (n % d * c)) = (d < 2 * (n % d)) := by
    rw [show 2 * (n % d * c) = (2 * (n % d)) * c by ring]
    exact propext (Nat.mul_lt_mul_right hc)
  simp only [rne, h1, h2, h3, h4]

theorem rne_mono {n1 d1 n2 d2 : Nat} (h1 : 0 < d1) (h2 : 0 < d2)
    (h : n1 * d2 ≤ n2 * d1) : rne n1 d1 ≤ rne n2 d2 := by
  obtain ⟨a1, _, a3, _⟩ := rne_spec n1 d1 h1
  obtain ⟨_, b2, _, b4⟩ := rne_spec n2 d2 h2
  by_contra hlt
  have hlt2 : rne n2 d2 + 1 ≤ rne n1 d1 := by omega
  generalize rne n1 d1 = m1 at *
  generalize rne n2 d2 = m2 at *
  -- scale both estimates to the common denominator `d1 * d2`
  have c1 : 2 * (m1 * d1) * d2 ≤ (2 * n1 + d1) * d2 := Nat.mul_le_mul_right d2 a1
  have c2 : 2 * n2 * d1 ≤ (2 * (m2 * d2) + d2) * d1 := Nat.mul_le_mul_right d1 b2
  have c3 : (m2 + 1) * (d1 * d2) ≤ m1 * (d1 * d2) := Nat.mul_le_mul_right _ hlt2
  have hpos : 0 < d1 * d2 := Nat.mul_pos h1 h2
  have e1 : 2 * (m1 * d1) * d2 = 2 * (m1 * (d1 * d2)) := by ring
  have e2 : (2 * n1 + d1) * d2 = 2 * (n1 * d2) + d1 * d2 := by ring
  have e3 : 2 * n2 * d1 = 2 * (n2 * d1) := by ring
  have e4 : (2 * (m2 * d2) + d2) * d1 = 2 * (m2 * (d1 * d2)) + d1 * d2 := by ring
  have e5 : (m2 + 1) * (d1 * d2) = m2 * (d1 * d2) + d1 * d2 := by ring
  rw [e1, e2] at c1
  rw [e3, e4] at c2
  rw [e5] at c3
  -- all estimates are equalities, so both roundings are ties
  have f1 : m1 * (d1 * d2) = m2 * (d1 * d2) + d1 * d2 := by omega
  have f2 : n1 * d2 = n2 * d1 := by omega
  have f3 : 2 * (m1 * (d1 * d2)) = 2 * (n1 * d2) + d1 * d2 := by omega
  have f4 : 2 * (n2 * d1) = 2 * (m2 * (d1 * d2)) + d1 * d2 := by omega
  have g1 : 2 * (m1 * d1) = 2 * n1 + d1 := by
    apply Nat.eq_of_mul_eq_mul_right h2
    rw [show 2 * (m1 * d1) * d2 = 2 * (m1 * (d1 * d2)) by ring, e2]; exact f3
  have g2 : 2 * n2 = 2 * (m2 * d2) + d2 := by
    apply Nat.eq_of_mul_eq_mul_right h1
    rw [e3, e4]; exact f4
  have g3 : m1 = m2 + 1 := by
    apply Nat.eq_of_mul_eq_mul_right hpos
    rw [e5]; exact f1
  have p1 := a3 g1
  have p2 := b4 g2
  omega

theorem rne_le_of_le {n d m : Nat} (hd : 0 < d) (h : n ≤ m * d) : rne n d ≤ m := by
  have := @rne_mono n d (m * d) d hd hd
    (Nat.mul_le_mul_right d h)
  rwa [rne_exact m d hd] at this

theorem le_rne_of_le {n d m : Nat} (hd : 0 < d) (h : m * d ≤ n) : m ≤ rne n d := by
  have := @rne_mono (m * d) d n d hd hd
    (Nat.mul_le_mul_right d h)
  rwa [rne_exact m d hd] at this

/-! ## Rounding a fraction to 53 significant digits -/

theorem div_le_div_of_cross {n1 d1 n2 d2 : Nat} (h1 : 0 < d1) (h2 : 0 < d2)
    (h : n1 * d2 ≤ n2 * d1) : n1 / d1 ≤ n2 / d2 := by
  rw [Nat.le_div_iff_mul_le h2]
  have a : n1 / d1 * d1 ≤ n1 := Nat.div_mul_le_self n1 d1
  have b : n1 / d1 * d1 * d2 ≤ n2 * d1 := Nat.le_trans (Nat.mul_le_mul_right d2 a) h
  have c : n1 / d1 * d2 * d1 ≤ n2 * d1 := by
    rw [show n1 / d1 * d2 * d1 = n1 / d1 * d1 * d2 by ring]; exact b
  exact Nat.le_of_mul_le_mul_right c h1

theorem roundMag_scale (n d c : Nat) (hc : 0 < c) : roundMag (n * c) (d * c) = roundMag n d := by
  have h1 : n * c / (d * c) = n / d := Nat.mul_div_mul_right n d hc
  simp only [roundMag, h1]
  rw [show d * c * 2 ^ (bitLen (n / d) - 53) = d * 2 ^ (bitLen (n / d) - 53) * c by ring,
    rne_scale _ _ _ hc]

theorem roundMag_exact {z j : Nat} (d : Nat) (hd : 0 < d) (hj : bitLen z ≤ 53 + j)
    (hdvd : 2 ^ j ∣ z) : roundMag (z * d) d = z := by
  have h1 : z * d / d = z := Nat.mul_div_cancel z hd
  simp only [roundMag, h1]
  have hsh : 2 ^ (bitLen z - 53) ∣ z :=
    Nat.dvd_trans (pow_dvd_pow 2 (by omega)) hdvd
  obtain ⟨k, hk⟩ := hsh
  have hpos : 0 < d * 2 ^ (bitLen z - 53) := Nat.mul_pos hd (Nat.pow_pos (by norm_num))
  have e : z * d = k * (d * 2 ^ (bitLen z - 53)) := by
    conv_lhs => rw [hk]
    ring
  rw [e, rne_exact k _ hpos]
  conv_rhs => rw [hk]
  ring

theorem roundMag_zero (d : Nat) (hd : 0 < d) : roundMag 0 d = 0 := by
  have := @roundMag_exact 0 0 d hd (by rw [bitLen_zero]; omega) (by simp)
  simpa using this

theorem roundMag_mono {n1 d1 n2 d2 : Nat} (h1 : 0 < d1) (h2 : 0 < d2)
    (h : n1 * d2 ≤ n2 * d1) : roundMag n1 d1 ≤ roundMag n2 d2 := by
  have hq : n1 / d1 ≤ n2 / d2 := div_le_div_of_cross h1 h2 h
  have hL : bitLen (n1 / d1) ≤ bitLen (n2 / d2) := bitLen_mono hq
  simp only [roundMag]
  rcases Nat.lt_or_ge (bitLen (n1 / d1) - 53) (bitLen (n2 / d2) - 53) with hsh | hsh
  · -- the second fraction lies in a higher binade
    have hL2 : bitLen (n2 / d2) = 53 + (bitLen (n2 / d2) - 53) := by omega
    have hL1 : bitLen (n1 / d1) ≤ 53 + (bitLen (n1 / d1) - 53) := by omega
    generalize bitLen (n1 / d1) - 53 = s1 at *
    generalize bitLen (n2 / d2) - 53 = s2 at *
    have p1 : 0 < d1 * 2 ^ s1 := Nat.mul_pos h1 (Nat.pow_pos (by norm_num))
    have p2 : 0 < d2 * 2 ^ s2 := Nat.mul_pos h2 (Nat.pow_pos (by norm_num))
    -- upper estimate of the first rounding
    have u1 : n1 / d1 < 2 ^ (53 + s1) :=
      Nat.lt_of_lt_of_le (lt_two_pow_bitLen _) (Nat.pow_le_pow_right (by norm_num) hL1)
    have u2 : n1 < 2 ^ (53 + s1) * d1 := (Nat.div_lt_iff_lt_mul h1).mp u1
    have u3 : n1 ≤ 2 ^ 53 * (d1 * 2 ^ s1) := by
      rw [pow_add] at u2
      rw [show 2 ^ 53 * (d1 * 2 ^ s1) = 2 ^ 53 * 2 ^ s1 * d1 by ring]
      exact Nat.le_of_lt u2
    have u4 : rne n1 (d1 * 2 ^ s1) ≤ 2 ^ 53 := rne_le_of_le p1 u3
    -- lower estimate of the second rounding
    have hne : n2 / d2 ≠ 0 := by
      intro h0
      rw [h0, bitLen_zero] at hL2
      omega
    have l1 : 2 ^ (53 + s2) ≤ 2 * (n2 / d2) := by
      have := two_pow_bitLen_le hne
      rwa [← hL2]
    have l2 : 2 ^ (52 + s2) ≤ n2 / d2 := by
      rw [show 53 + s2 = (52 + s2) + 1 by omega, pow_succ] at l1
      omega
    have l3 : 2 ^ (52 + s2) * d2 ≤ n2 := (Nat.le_div_iff_mul_le h2).mp l2
    have l4 : 2 ^ 52 * (d2 * 2 ^ s2) ≤ n2 := by
      rw [pow_add] at l3
      rw [show 2 ^ 52 * (d2 * 2 ^ s2) = 2 ^ 52 * 2 ^ s2 * d2 by ring]
      exact l3
    have l5 : 2 ^ 52 ≤ rne n2 (d2 * 2 ^ s2) := le_rne_of_le p2 l4
    -- compare through the power of two between the binades
    have m1 : rne n1 (d1 * 2 ^ s1) * 2 ^ s1 ≤ 2 ^ 53 * 2 ^ s1 := Nat.mul_le_mul_right _ u4
    have m2 : 2 ^ 52 * 2 ^ s2 ≤ rne n2 (d2 * 2 ^ s2) * 2 ^ s2 := Nat.mul_le_mul_right _ l5
    have m3 : 2 ^ 53 * 2 ^ s1 ≤ 2 ^ 52 * 2 ^ s2 := by
      rw [← pow_add, ← pow_add]
      exact Nat.pow_le_pow_right (by norm_num) (by omega)
    exact Nat.le_trans m1 (Nat.le_trans m3 m2)
  · -- both fractions lie in the same binade
    have hs : bitLen (n1 / d1) - 53 = bitLen (n2 / d2) - 53 := by omega
    rw [hs]
    generalize bitLen (n2 / d2) - 53 = s at *
    have hp : 0 < 2 ^ s := Nat.pow_pos (by norm_num)
    apply Nat.mul_le_mul_right
    apply rne_mono (Nat.mul_pos h1 hp) (Nat.mul_pos h2 hp)
    rw [show n1 * (d2 * 2 ^ s) = n1 * d2 * 2 ^ s by ring,
      show n2 * (d1 * 2 ^ s) = n2 * d1 * 2 ^ s by ring]
    exact Nat.mul_le_mul_right _ h

/-! ## Rounding to a double -/

namespace F64

theorem roundFrac_scale (s : Bool) (n d c : Nat) (hc : 0 < c) :
    roundFrac s (n * c) (d * c) = roundFrac s n d := by
  simp only [roundFrac, roundMag_scale n d c hc]

theorem roundFrac_cases (s : Bool) (n d : Nat) :
    roundFrac s n d = inf s ∨ roundFrac s n d = fin s (roundMag n d) := by
  simp only [roundFrac]
  split
  · exact Or.inl rfl
  · exact Or.inr rfl

theorem roundFrac_ne_nan (s : Bool) (n d : Nat) : roundFrac s n d ≠ nan := by
  rcases roundFrac_cases s n d with h | h <;> rw [h] <;> exact F64.noConfusion

theorem roundFrac_exact (s : Bool) {z : Nat} (d : Nat) (hd : 0 < d)
    (hz : IsDouble (fin s z)) : roundFrac s (z * d) d = fin s z := by
  obtain ⟨hlt, hmod⟩ := hz
  have h := @roundMag_exact z (bitLen z - 53) d hd (by omega)
    (Nat.dvd_of_mod_eq_zero hmod)
  simp only [roundFrac, h]
  rw [if_neg (by omega)]

/-! ## The library rounding function -/

theorem round_eq_roundHalfAway (x : F64) : round x = Spec.roundHalfAway x := by
  cases x with
  | nan => rfl
  | inf s => rfl
  | fin s z =>
    simp only [round, Spec.roundHalfAway]
    have h2 : (2 : Nat) ^ 1075 = 2 * 2 ^ 1074 := by rw [pow_succ]; ring
    have hP : 0 < (2 : Nat) ^ 1074 := Nat.two_pow_pos 1074
    rw [h2]
    have hdm := Nat.div_add_mod z (2 ^ 1074)
    have hmod := Nat.mod_lt z hP
    generalize (2 : Nat) ^ 1074 = P at *
    have key : (2 * z + P) / (2 * P) =
        if 2 * (z % P) < P then z / P else z / P + 1 := by
      have e : 2 * z + P = (2 * (z % P) + P) + 2 * P * (z / P) := by
        have : 2 * P * (z / P) = 2 * (P * (z / P)) := by ring
        omega
      rw [e, Nat.add_mul_div_left _ _ (by omega : 0 < 2 * P)]
      split
      · rw [Nat.div_eq_of_lt (by omega)]; omega
      · have : (2 * (z % P) + P) / (2 * P) = 1 := by
          apply Nat.div_eq_of_lt_le <;> omega
        omega
    rw [key]
    split <;> rfl

end F64

/-! ## Comparisons -/

namespace F64

theorem hundred_units_pos : 0 < 100 * 2 ^ 1074 :=
  Nat.mul_pos (by decide) (Nat.two_pow_pos 1074)

theorem le_zero_eq_false_of_lt {d : F64} (h : lt zero d = true) : le d zero = false := by
  cases d with
  | nan => simp [zero, lt] at h
  | inf s => cases s <;> simp_all [zero, lt, le]
  | fin s z =>
    cases s <;> simp only [zero, lt, le, toInt, decide_eq_true_eq, decide_eq_false_iff_not] at * <;>
      omega

theorem ge_hundred_eq_false_of_lt {d : F64} (h : lt d hundred = true) :
    ge d hundred = false := by
  have hp := hundred_units_pos
  cases d with
  | nan => simp [lt] at h
  | inf s => cases s <;> simp_all [hundred, lt, le, ge]
  | fin s z =>
    simp only [hundred, ge, lt, le, toInt, decide_eq_true_eq, decide_eq_false_iff_not] at *
    generalize 100 * 2 ^ 1074 = H at *
    cases s <;> simp only [Bool.false_eq_true, if_false, if_true] at * <;> omega

theorem le_zero_eq_false_of_ge {d : F64} (h : ge d hundred = true) : le d zero = false := by
  have hp := hundred_units_pos
  cases d with
  | nan => simp [ge, le, hundred] at h
  | inf s => cases s <;> simp_all [hundred, zero, le, ge]
  | fin s z =>
    simp only [hundred, zero, ge, le, toInt, decide_eq_true_eq, decide_eq_false_iff_not] at *
    generalize 100 * 2 ^ 1074 = H at *
    cases s <;> simp only [Bool.false_eq_true, if_false, if_true] at * <;> omega

end F64

/-! ## The claims -/

/-- C1: for every base price, tax rate and processing fee, no input being
rejected, `calculate_total_with_fees` is the specification's
`round((basePrice + tax + fee) * 100.0) / 100.0` with
`tax = basePrice * (taxRatePercent / 100.0)`,
`fee = basePrice * (processingFeePercent / 100.0)` and `round` rounding to the
nearest integer, ties away from zero. -/
theorem total_with_fees_eq_spec (basePrice taxRatePercent processingFeePercent : F64) :
    calculate_total_with_fees basePrice taxRatePercent processingFeePercent =
      Spec.TotalWithFees basePrice taxRatePercent processingFeePercent := by
  simp only [calculate_total_with_fees, Spec.TotalWithFees, F64.round_eq_roundHalfAway]

/-- C2: for every original price and every discount percent `d` with
`0 < d < 100`, `calculate_discounted_price` is the specification's
`round((originalPrice - discount) * 100.0) / 100.0` with
`discount = originalPrice * (d / 100.0)`, rounded as in C1. -/
theorem discounted_price_mid_eq_spec (originalPrice d : F64)
    (h0 : F64.lt F64.zero d = true) (h100 : F64.lt d F64.hundred = true) :
    calculate_discounted_price originalPrice d = Spec.DiscountedMid originalPrice d := by
  simp only [calculate_discounted_price, Spec.DiscountedMid, F64.round_eq_roundHalfAway,
    F64.le_zero_eq_false_of_lt h0, F64.ge_hundred_eq_false_of_lt h100, Bool.false_eq_true,
    if_false]

/-- Witness of C2 at `calculate_discounted_price(200, 25)`. -/
theorem discounted_price_mid_eq_spec_witness :
    F64.lt F64.zero (F64.ofRatio false 25 1) = true ∧
      F64.lt (F64.ofRatio false 25 1) F64.hundred = true ∧
      calculate_discounted_price (F64.ofRatio false 200 1) (F64.ofRatio false 25 1) =
        Spec.DiscountedMid (F64.ofRatio false 200 1) (F64.ofRatio false 25 1) :=
  ⟨by decide, by decide,
    discounted_price_mid_eq_spec (F64.ofRatio false 200 1) (F64.ofRatio false 25 1)
      (by decide) (by decide)⟩

/-- Rounding a finite double to two decimals gives the double nearest to a whole
number of hundredths, of the same sign, or overflows. -/
theorem Spec.roundCents_fin (s : Bool) (z : Nat) :
    Spec.roundCents (F64.fin s z) = F64.inf s ∨
      ∃ n, Spec.roundCents (F64.fin s z) = F64.ofRatio s n 100 := by
  have hP : 0 < (2 : Nat) ^ 1074 := Nat.two_pow_pos 1074
  have hH : 100 * 2 ^ 1074 ≠ 0 := Nat.pos_iff_ne_zero.mp F64.hundred_units_pos
  have key : ∀ k : Nat, F64.div (F64.fin s (k * 2 ^ 1074)) F64.hundred = F64.ofRatio s k 100 := by
    intro k
    simp only [F64.div, F64.hundred, if_neg hH, Bool.xor_false, F64.ofRatio]
    exact F64.roundFrac_scale s (k * 2 ^ 1074) 100 (2 ^ 1074) hP
  simp only [Spec.roundCents, F64.mul, F64.hundred, Bool.xor_false]
  rcases F64.roundFrac_cases s (z * (100 * 2 ^ 1074)) (2 ^ 1074) with h | h
  · left
    rw [h]
    simp [Spec.roundHalfAway, F64.div]
  · right
    rw [h]
    simp only [Spec.roundHalfAway]
    split
    · exact ⟨_, key _⟩
    · exact ⟨_, key _⟩

/-- C3: for every original price `p` and every discount percent `d <= 0`,
`calculate_discounted_price(p, d)` returns `p` itself, not rounded to two
decimals.  It equals `p` also when `p` is not a whole number of hundredths (no
double nearest to one), and then differs from `round(p * 100) / 100`, as at
`p = 0.125`, where rounding would give `0.13`.  In particular
`calculate_discounted_price(50, 0) = 50` and
`calculate_discounted_price(50, -5) = 50`. -/
theorem discounted_price_low_passthrough :
    (∀ p d : F64, F64.le d F64.zero = true → calculate_discounted_price p d = p) ∧
    (∀ (s : Bool) (z : Nat) (d : F64), F64.le d F64.zero = true →
      (∀ n, F64.fin s z ≠ F64.ofRatio s n 100) →
      calculate_discounted_price (F64.fin s z) d = F64.fin s z ∧
        calculate_discounted_price (F64.fin s z) d ≠ Spec.roundCents (F64.fin s z)) ∧
    (calculate_discounted_price (F64.ofRatio false 125 1000) F64.zero =
        F64.ofRatio false 125 1000 ∧
      Spec.roundCents (F64.ofRatio false 125 1000) = F64.ofRatio false 13 100 ∧
      F64.ofRatio false 13 100 ≠ F64.ofRatio false 125 1000) ∧
    calculate_discounted_price (F64.ofRatio false 50 1) F64.zero = F64.ofRatio false 50 1 ∧
    calculate_discounted_price (F64.ofRatio false 50 1) (F64.ofRatio true 5 1) =
      F64.ofRatio false 50 1 := by
  have main : ∀ p d : F64, F64.le d F64.zero = true → calculate_discounted_price p d = p := by
    intro p d h
    simp only [calculate_discounted_price, h, if_true]
  refine ⟨main, ?_, ⟨by decide, by decide, by decide⟩, by decide, by decide⟩
  intro s z d h hn
  refine ⟨main _ d h, ?_⟩
  rw [main _ d h]
  intro heq
  rcases Spec.roundCents_fin s z with h1 | ⟨n, h1⟩
  · rw [h1] at heq; exact F64.noConfusion heq
  · rw [h1] at heq; exact hn n heq

/-- Witness of C3 at `calculate_discounted_price(0.125, -5)`. -/
theorem discounted_price_low_passthrough_witness :
    F64.le (F64.ofRatio true 5 1) F64.zero = true ∧
      calculate_discounted_price (F64.ofRatio false 125 1000) (F64.ofRatio true 5 1) =
        F64.ofRatio false 125 1000 :=
  ⟨by decide, discounted_price_low_passthrough.1 _ _ (by decide)⟩

/-- C4: for every original price `p`, of either sign, zero, infinite or NaN, and every
discount percent `d >= 100`, `calculate_discounted_price(p, d)` returns exactly
`0.0`; in particular at `(50, 100)` and `(50, 150)`. -/
theorem discounted_price_high_zero :
    (∀ p d : F64, F64.ge d F64.hundred = true →
      calculate_discounted_price p d = F64.zero) ∧
    calculate_discounted_price (F64.ofRatio false 50 1) (F64.ofRatio false 100 1) = F64.zero ∧
    calculate_discounted_price (F64.ofRatio false 50 1) (F64.ofRatio false 150 1) = F64.zero := by
  refine ⟨?_, by decide, by decide⟩
  intro p d h
  simp only [calculate_discounted_price, F64.le_zero_eq_false_of_ge h, h, Bool.false_eq_true,
    if_false, if_true]

/-- Witness of C4 at a negative price, `calculate_discounted_price(-50, 150)`. -/
theorem discounted_price_high_zero_witness :
    F64.ge (F64.ofRatio false 150 1) F64.hundred = true ∧
      calculate_discounted_price (F64.ofRatio true 50 1) (F64.ofRatio false 150 1) = F64.zero :=
  ⟨by decide, discounted_price_high_zero.1 _ _ (by decide)⟩

namespace F64

/-- Dividing a whole number `k` by `100.0` gives the double nearest to `k / 100`. -/
theorem div_int_hundred (s : Bool) (k : Nat) :
    div (fin s (k * 2 ^ 1074)) hundred = ofRatio s k 100 := by
  have hP : 0 < (2 : Nat) ^ 1074 := Nat.two_pow_pos 1074
  have hH : 100 * 2 ^ 1074 ≠ 0 := Nat.pos_iff_ne_zero.mp hundred_units_pos
  simp only [div, hundred, if_neg hH, Bool.xor_false, ofRatio]
  exact roundFrac_scale s (k * 2 ^ 1074) 100 (2 ^ 1074) hP

/-- An amount exactly halfway between `n / 100` and `(n + 1) / 100` whose hundredfold is
below `2 ^ 52` is multiplied by `100.0` without error, rounded up in magnitude
to `n + 1`, and divided by `100.0`. -/
theorem roundCents_tie (s : Bool) (z n : Nat) (htie : 200 * z = (2 * n + 1) * 2 ^ 1074)
    (hsmall : 2 * n + 1 < 2 ^ 53) :
    div (round (mul (fin s z) hundred)) hundred = ofRatio s (n + 1) 100 := by
  have hP : 0 < (2 : Nat) ^ 1074 := Nat.two_pow_pos 1074
  have hP2 : (2 : Nat) ^ 1074 = 2 * 2 ^ 1073 := by rw [← pow_succ']
  have hz : 100 * z = (2 * n + 1) * 2 ^ 1073 := by
    have h : 2 * (100 * z) = 2 * ((2 * n + 1) * 2 ^ 1073) := by
      rw [show 2 * (100 * z) = 200 * z by ring, htie, hP2]; ring
    exact Nat.eq_of_mul_eq_mul_left (by norm_num) h
  -- the product with `100.0` is exact
  have hbound : 100 * z < 2 ^ (53 + 1073) := by
    rw [hz, pow_add]
    exact Nat.mul_lt_mul_of_pos_right hsmall (Nat.pow_pos (by norm_num))
  have hmag : roundMag (100 * z * 2 ^ 1074) (2 ^ 1074) = 100 * z :=
    roundMag_exact (2 ^ 1074) hP (bitLen_le_of_lt hbound) ⟨2 * n + 1, by rw [hz]; ring⟩
  have hmul : mul (fin s z) hundred = fin s (100 * z) := by
    simp only [mul, hundred, Bool.xor_false, roundFrac]
    rw [show z * (100 * 2 ^ 1074) = 100 * z * 2 ^ 1074 by ring, hmag]
    have hle : (2 : Nat) ^ (53 + 1073) ≤ 2 ^ 2098 :=
      Nat.pow_le_pow_right (by norm_num) (by norm_num)
    rw [if_neg (Nat.not_le.mpr (Nat.lt_of_lt_of_le hbound hle))]
  -- the library rounding takes the half upwards in magnitude
  have hround : round (fin s (100 * z)) = fin s ((n + 1) * 2 ^ 1074) := by
    simp only [round]
    have e : 2 * (100 * z) + 2 ^ 1074 = (n + 1) * 2 ^ 1075 := by
      rw [show 2 * (100 * z) = 200 * z by ring, htie, pow_succ 2 1074]; ring
    rw [e, Nat.mul_div_cancel _ (Nat.pow_pos (by norm_num))]
  rw [hmul, hround, div_int_hundred]

end F64

/-- C5 (as amended): when the amount before rounding is a double exactly
halfway between the hundredths `n / 100` and `(n + 1) / 100` in magnitude and its
hundredfold is below `2 ^ 52`, both functions return the double nearest to the
hundredth farther from zero.  The decimal cases of the specification hold as
well: `calculate_total_with_fees(10.005, 0, 0)` and
`calculate_discounted_price(20.01, 50)` return `10.01`, not `10.00`, and the
mirrored negative cases return `-10.01`. -/
theorem half_away_at_exact_ties :
    (∀ (s : Bool) (z n : Nat), 200 * z = (2 * n + 1) * 2 ^ 1074 → 2 * n + 1 < 2 ^ 53 →
      (∀ b t f : F64,
        F64.add (F64.add b (F64.mul b (F64.div t F64.hundred)))
          (F64.mul b (F64.div f F64.hundred)) = F64.fin s z →
        calculate_total_with_fees b t f = F64.ofRatio s (n + 1) 100) ∧
      (∀ p d : F64, F64.lt F64.zero d = true → F64.lt d F64.hundred = true →
        F64.sub p (F64.mul p (F64.div d F64.hundred)) = F64.fin s z →
        calculate_discounted_price p d = F64.ofRatio s (n + 1) 100)) ∧
    (calculate_total_with_fees (F64.ofRatio false 10005 1000) F64.zero F64.zero =
        F64.ofRatio false 1001 100 ∧
      calculate_discounted_price (F64.ofRatio false 2001 100) (F64.ofRatio false 50 1) =
        F64.ofRatio false 1001 100 ∧
      F64.ofRatio false 1001 100 ≠ F64.ofRatio false 1000 100) ∧
    (calculate_total_with_fees (F64.ofRatio true 10005 1000) F64.zero F64.zero =
        F64.ofRatio true 1001 100 ∧
      calculate_discounted_price (F64.ofRatio true 2001 100) (F64.ofRatio false 50 1) =
        F64.ofRatio true 1001 100) := by
  refine ⟨?_, ⟨by decide, by decide, by decide⟩, ⟨by decide, by decide⟩⟩
  intro s z n htie hsmall
  constructor
  · intro b t f h
    simp only [calculate_total_with_fees, h]
    exact F64.roundCents_tie s z n htie hsmall
  · intro p d h0 h100 h
    simp only [calculate_discounted_price, F64.le_zero_eq_false_of_lt h0,
      F64.ge_hundred_eq_false_of_lt h100, Bool.false_eq_true, if_false, h]
    exact F64.roundCents_tie s z n htie hsmall

/-- Witness of C5 at `calculate_total_with_fees(10.125, 0, 0)`, which returns `10.13`. -/
theorem half_away_at_exact_ties_witness :
    200 * (81 * 2 ^ 1071) = (2 * 1012 + 1) * 2 ^ 1074 ∧ 2 * 1012 + 1 < 2 ^ 53 ∧
      F64.ofRatio false 10125 1000 = F64.fin false (81 * 2 ^ 1071) ∧
      calculate_total_with_fees (F64.fin false (81 * 2 ^ 1071)) F64.zero F64.zero =
        F64.ofRatio false (1012 + 1) 100 :=
  ⟨by decide, by decide, by decide,
    (half_away_at_exact_ties.1 false (81 * 2 ^ 1071) 1012 (by decide) (by decide)).1
      (F64.fin false (81 * 2 ^ 1071)) F64.zero F64.zero (by decide)⟩

/-- C5 (as stated) fails: the amount `50000000000000.125` is a double exactly halfway
between the hundredths `50000000000000.12` and `50000000000000.13`, and
`calculate_total_with_fees(50000000000000.125, 0, 0)` returns the double nearest
to the former, the one nearer zero, which is not the double nearest to the
latter: the product with `100.0` is not a double and rounds to the even integer
`5000000000000012` before `std::round` sees it.  Likewise the double written
`1.005` lies below the decimal `1.005` and
`calculate_total_with_fees(1.005, 0, 0)` returns `1.00`. -/
theorem half_away_fails_at_large_tie :
    F64.ofRatio false 50000000000000125 1000 = F64.fin false (400000000000001 * 2 ^ 1071) ∧
    F64.IsDouble (F64.fin false (400000000000001 * 2 ^ 1071)) ∧
    F64.add (F64.add (F64.fin false (400000000000001 * 2 ^ 1071))
        (F64.mul (F64.fin false (400000000000001 * 2 ^ 1071)) (F64.div F64.zero F64.hundred)))
        (F64.mul (F64.fin false (400000000000001 * 2 ^ 1071)) (F64.div F64.zero F64.hundred)) =
      F64.fin false (400000000000001 * 2 ^ 1071) ∧
    200 * (400000000000001 * 2 ^ 1071) = (2 * 5000000000000012 + 1) * 2 ^ 1074 ∧
    calculate_total_with_fees (F64.fin false (400000000000001 * 2 ^ 1071)) F64.zero F64.zero =
      F64.ofRatio false 5000000000000012 100 ∧
    calculate_total_with_fees (F64.fin false (400000000000001 * 2 ^ 1071)) F64.zero F64.zero ≠
      F64.ofRatio false (5000000000000012 + 1) 100 ∧
    calculate_total_with_fees (F64.ofRatio false 1005 1000) F64.zero F64.zero =
      F64.ofRatio false 100 100 := by
  refine ⟨by decide, by decide, by decide, by decide, by decide, by decide, by decide⟩

namespace F64

theorem roundFrac_zero (s : Bool) (d : Nat) (hd : 0 < d) : roundFrac s 0 d = fin s 0 := by
  simp only [roundFrac, roundMag_zero d hd]
  rw [if_neg (Nat.not_le.mpr (Nat.two_pow_pos 2098))]

theorem div_zero_hundred : div zero hundred = zero := by
  have hH : 100 * 2 ^ 1074 ≠ 0 := Nat.pos_iff_ne_zero.mp hundred_units_pos
  simp only [div, zero, hundred, if_neg hH, Nat.zero_mul, Bool.xor_false]
  exact roundFrac_zero false _ hundred_units_pos

theorem mul_fin_zero (s : Bool) (z : Nat) : mul (fin s z) zero = fin s 0 := by
  simp only [mul, zero, Nat.mul_zero, Bool.xor_false]
  exact roundFrac_zero s _ (Nat.two_pow_pos 1074)

/-- Adding a zero of the same sign to a finite double returns that double. -/
theorem add_fin_zero (s : Bool) (z : Nat) (hz : IsDouble (fin s z)) :
    add (fin s z) (fin s 0) = fin s z := by
  have hexact := roundFrac_exact s 1 (by norm_num) hz
  rw [Nat.mul_one] at hexact
  rcases Nat.eq_zero_or_pos z with h0 | h0
  · subst h0
    cases s <;> simp [add, toInt]
  · cases s
    · have hr : ¬ ((z : Int) + 0 = 0) := by omega
      have hneg : decide ((z : Int) + 0 < 0) = false := by
        rw [decide_eq_false_iff_not]; omega
      have habs : ((z : Int) + 0).natAbs = z := by simp
      simp only [add, toInt, Bool.false_eq_true, if_false, Int.Nat.cast_ofNat_Int, if_neg hr,
        hneg, habs]
      exact hexact
    · have hr : ¬ (-(z : Int) + -((0 : Nat) : Int) = 0) := by omega
      have hneg : decide (-(z : Int) + -((0 : Nat) : Int) < 0) = true := by
        rw [decide_eq_true_eq]; omega
      have habs : (-(z : Int) + -((0 : Nat) : Int)).natAbs = z := by simp
      simp only [add, toInt, if_true, if_neg hr, hneg, habs]
      exact hexact

end F64

/-- C6: for every finite price `p`, `calculate_total_with_fees(p, 0, 0)` equals
`round(p * 100) / 100`: with both rates zero the tax and the fee are zeros and
the sum before rounding is `p` itself. -/
theorem total_with_fees_zero_rates (s : Bool) (z : Nat) (hp : F64.IsDouble (F64.fin s z)) :
    F64.mul (F64.fin s z) (F64.div F64.zero F64.hundred) = F64.fin s 0 ∧
    F64.add (F64.add (F64.fin s z) (F64.mul (F64.fin s z) (F64.div F64.zero F64.hundred)))
        (F64.mul (F64.fin s z) (F64.div F64.zero F64.hundred)) = F64.fin s z ∧
    calculate_total_with_fees (F64.fin s z) F64.zero F64.zero =
      Spec.roundCents (F64.fin s z) := by
  have htax : F64.mul (F64.fin s z) (F64.div F64.zero F64.hundred) = F64.fin s 0 := by
    rw [F64.div_zero_hundred, F64.mul_fin_zero]
  have hsum : F64.add (F64.add (F64.fin s z)
      (F64.mul (F64.fin s z) (F64.div F64.zero F64.hundred)))
      (F64.mul (F64.fin s z) (F64.div F64.zero F64.hundred)) = F64.fin s z := by
    rw [htax, F64.add_fin_zero s z hp, F64.add_fin_zero s z hp]
  refine ⟨htax, hsum, ?_⟩
  simp only [calculate_total_with_fees, hsum, Spec.roundCents, F64.round_eq_roundHalfAway]

/-- Witness of C6 at the price `19.99`. -/
theorem total_with_fees_zero_rates_witness :
    F64.ofRatio false 1999 100 = F64.fin false (5626684784446013 * 2 ^ 1026) ∧
      F64.IsDouble (F64.fin false (5626684784446013 * 2 ^ 1026)) ∧
      calculate_total_with_fees (F64.fin false (5626684784446013 * 2 ^ 1026)) F64.zero F64.zero =
        Spec.roundCents (F64.fin false (5626684784446013 * 2 ^ 1026)) :=
  ⟨by decide, by decide,
    (total_with_fees_zero_rates false (5626684784446013 * 2 ^ 1026) (by decide)).2.2⟩

/-- C7: `calculate_total_with_fees(100, 10, 2)` returns exactly `112.00`, with
`tax = 10`, `fee = 2` and `total = 112`. -/
theorem total_with_fees_100_10_2 :
    F64.mul (F64.ofRatio false 100 1) (F64.div (F64.ofRatio false 10 1) F64.hundred) =
      F64.ofRatio false 10 1 ∧
    F64.mul (F64.ofRatio false 100 1) (F64.div (F64.ofRatio false 2 1) F64.hundred) =
      F64.ofRatio false 2 1 ∧
    F64.add (F64.add (F64.ofRatio false 100 1) (F64.ofRatio false 10 1))
      (F64.ofRatio false 2 1) = F64.ofRatio false 112 1 ∧
    calculate_total_with_fees (F64.ofRatio false 100 1) (F64.ofRatio false 10 1)
      (F64.ofRatio false 2 1) = F64.ofRatio false 112 1 ∧
    F64.ofRatio false 112 1 = F64.fin false (112 * 2 ^ 1074) := by
  refine ⟨by decide, by decide, by decide, by decide, by decide⟩

/-- C8: `calculate_discounted_price(200, 25)` returns exactly `150.00`. -/
theorem discounted_price_200_25 :
    calculate_discounted_price (F64.ofRatio false 200 1) (F64.ofRatio false 25 1) =
      F64.ofRatio false 150 1 ∧
    F64.ofRatio false 150 1 = F64.fin false (150 * 2 ^ 1074) := by
  refine ⟨by decide, by decide⟩

namespace F64

theorem isNaN_iff (x : F64) : x.isNaN = true ↔ x = nan := by
  cases x <;> simp [isNaN]

theorem add_nan_left (y : F64) : add nan y = nan := by cases y <;> rfl

theorem add_nan_right (x : F64) : add x nan = nan := by cases x <;> rfl

theorem mul_nan_left (y : F64) : mul nan y = nan := by cases y <;> rfl

theorem mul_nan_right (x : F64) : mul x nan = nan := by cases x <;> rfl

theorem div_nan_left (y : F64) : div nan y = nan := by cases y <;> rfl

theorem round_nan : round nan = nan := rfl

end F64

/-- C10: a NaN passes through `calculate_total_with_fees` without any error: if
any of the three arguments is NaN the result is NaN; in particular
`calculate_total_with_fees(NaN, 10, 0)` returns NaN. -/
theorem total_with_fees_nan :
    (∀ b t f : F64, b.isNaN = true ∨ t.isNaN = true ∨ f.isNaN = true →
      (calculate_total_with_fees b t f).isNaN = true) ∧
    calculate_total_with_fees F64.nan (F64.ofRatio false 10 1) F64.zero = F64.nan := by
  refine ⟨?_, by decide⟩
  intro b t f h
  rw [F64.isNaN_iff]
  simp only [F64.isNaN_iff] at h
  rcases h with h | h | h <;> subst h <;>
    simp only [calculate_total_with_fees, F64.div_nan_left, F64.mul_nan_left, F64.mul_nan_right,
      F64.add_nan_left, F64.add_nan_right, F64.round_nan]

/-- Witness of C10 at a NaN processing fee, `calculate_total_with_fees(100, 10, NaN)`. -/
theorem total_with_fees_nan_witness :
    F64.isNaN F64.nan = true ∧
      (calculate_total_with_fees (F64.ofRatio false 100 1) (F64.ofRatio false 10 1)
        F64.nan).isNaN = true :=
  ⟨rfl, total_with_fees_nan.1 _ _ _ (Or.inr (Or.inr rfl))⟩

/-! ## Monotonicity of rounding -/

namespace F64

theorem toInt_mul (s : Bool) (a c : Nat) : toInt s (a * c) = toInt s a * (c : Int) := by
  cases s <;> simp [toInt]

theorem toInt_xor_mul (s t : Bool) (a b : Nat) :
    toInt (xor s t) (a * b) = toInt s a * toInt t b := by
  cases s <;> cases t <;> simp [toInt]

theorem toInt_zero (s : Bool) : toInt s 0 = 0 := by cases s <;> simp [toInt]

theorem le_inf_true (y : F64) (hy : y ≠ nan) : le (inf true) y = true := by
  cases y with
  | nan => exact absurd rfl hy
  | inf t => simp [le]
  | fin t b => simp [le]

theorem le_inf_false (x : F64) (hx : x ≠ nan) : le x (inf false) = true := by
  cases x with
  | nan => exact absurd rfl hx
  | inf t => simp [le]
  | fin t b => simp [le]

theorem le_refl_inf (s : Bool) : le (inf s) (inf s) = true := by cases s <;> rfl

theorem ne_nan_of_le_left {x y : F64} (h : le x y = true) : x ≠ nan := by
  intro hx; subst hx; simp [le] at h

theorem ne_nan_of_le_right {x y : F64} (h : le x y = true) : y ≠ nan := by
  intro hy; subst hy; cases x <;> simp [le] at h

/-- Rounding preserves the order of the signed exact values `± n1 / d1` and
`± n2 / d2`, compared by cross-multiplication. -/
theorem roundFrac_le {s1 s2 : Bool} {n1 d1 n2 d2 : Nat} (h1 : 0 < d1) (h2 : 0 < d2)
    (h : toInt s1 n1 * (d2 : Int) ≤ toInt s2 n2 * (d1 : Int)) :
    le (roundFrac s1 n1 d1) (roundFrac s2 n2 d2) = true := by
  cases s1 <;> cases s2
  · -- both nonnegative
    have hc : n1 * d2 ≤ n2 * d1 := by
      simp only [toInt, Bool.false_eq_true, if_false] at h
      exact_mod_cast h
    have hm := roundMag_mono h1 h2 hc
    simp only [roundFrac]
    generalize roundMag n1 d1 = m1 at *
    generalize roundMag n2 d2 = m2 at *
    generalize (2 : Nat) ^ 2098 = B at *
    split <;> split <;> simp only [le, toInt, Bool.false_eq_true, if_false, Bool.not_false,
      Bool.or_true, decide_eq_true_eq] <;> omega
  · -- nonnegative below nonpositive: both are zero
    have hz : n1 * d2 = 0 ∧ n2 * d1 = 0 := by
      simp only [toInt, Bool.false_eq_true, if_false, if_true, neg_mul] at h
      have a : (0 : Int) ≤ (n1 : Int) * d2 := by positivity
      have b : (0 : Int) ≤ (n2 : Int) * d1 := by positivity
      constructor
      · have : ((n1 * d2 : Nat) : Int) = 0 := by push_cast; omega
        exact_mod_cast this
      · have : ((n2 * d1 : Nat) : Int) = 0 := by push_cast; omega
        exact_mod_cast this
    have hn1 : n1 = 0 := by
      rcases Nat.mul_eq_zero.mp hz.1 with h0 | h0
      · exact h0
      · omega
    have hn2 : n2 = 0 := by
      rcases Nat.mul_eq_zero.mp hz.2 with h0 | h0
      · exact h0
      · omega
    subst hn1; subst hn2
    rw [roundFrac_zero _ _ h1, roundFrac_zero _ _ h2]
    simp [le, toInt]
  · -- nonpositive below nonnegative
    simp only [roundFrac]
    generalize roundMag n1 d1 = m1 at *
    generalize roundMag n2 d2 = m2 at *
    generalize (2 : Nat) ^ 2098 = B at *
    split <;> split <;> simp only [le, toInt, Bool.false_eq_true, if_false, if_true,
      Bool.not_false, Bool.or_true, Bool.true_or, decide_eq_true_eq]
    omega
  · -- both nonpositive
    have hc : n2 * d1 ≤ n1 * d2 := by
      simp only [toInt, if_true, neg_mul] at h
      have : ((n2 * d1 : Nat) : Int) ≤ ((n1 * d2 : Nat) : Int) := by push_cast; omega
      exact_mod_cast this
    have hm := roundMag_mono h2 h1 hc
    simp only [roundFrac]
    generalize roundMag n1 d1 = m1 at *
    generalize roundMag n2 d2 = m2 at *
    generalize (2 : Nat) ^ 2098 = B at *
    split <;> split <;> simp only [le, toInt, if_true, Bool.true_or, Bool.not_true,
      Bool.or_false, decide_eq_true_eq] <;> omega

end F64

/-! ## Monotonicity of the operations -/

namespace F64

theorem add_comm (x y : F64) : add x y = add y x := by
  cases x with
  | nan => rw [add_nan_left, add_nan_right]
  | inf s =>
    cases y with
    | nan => rfl
    | inf t => cases s <;> cases t <;> rfl
    | fin t b => rfl
  | fin s a =>
    cases y with
    | nan => rfl
    | inf t => rfl
    | fin t b => simp only [add, Int.add_comm (toInt s a), Bool.and_comm s]

theorem mul_comm (x y : F64) : mul x y = mul y x := by
  cases x with
  | nan => rw [mul_nan_left, mul_nan_right]
  | inf s =>
    cases y with
    | nan => rfl
    | inf t => simp only [mul, Bool.xor_comm s]
    | fin t b => simp only [mul, Bool.xor_comm s]
  | fin s a =>
    cases y with
    | nan => rfl
    | inf t => simp only [mul, Bool.xor_comm s]
    | fin t b => simp only [mul, Bool.xor_comm s, Nat.mul_comm a]

/-- A sum of finite doubles is the rounding of the exact signed sum. -/
theorem add_fin_eq (s t : Bool) (a b : Nat) :
    ∃ (σ : Bool) (n : Nat), add (fin s a) (fin t b) = roundFrac σ n 1 ∧
      toInt σ n = toInt s a + toInt t b := by
  by_cases hr : toInt s a + toInt t b = 0
  · refine ⟨s && t, 0, ?_, ?_⟩
    · simp only [add, hr, if_true]
      exact (roundFrac_zero _ 1 (by norm_num)).symm
    · rw [toInt_zero, hr]
  · refine ⟨decide (toInt s a + toInt t b < 0), (toInt s a + toInt t b).natAbs, ?_, ?_⟩
    · simp only [add, if_neg hr]
    · generalize toInt s a + toInt t b = r at *
      by_cases hneg : r < 0
      · simp only [toInt, hneg, decide_True, if_true]; omega
      · simp only [toInt, hneg, decide_False, Bool.false_eq_true, if_false]; omega

theorem div_hundred_mono {x y : F64} (h : le x y = true) :
    le (div x hundred) (div y hundred) = true := by
  have hpos := hundred_units_pos
  have hH : 100 * 2 ^ 1074 ≠ 0 := Nat.pos_iff_ne_zero.mp hpos
  cases x with
  | nan => simp [le] at h
  | inf s =>
    cases y with
    | nan => simp [le] at h
    | inf t => simpa [div, hundred] using h
    | fin t b =>
      have hs : s = true := by simpa [le] using h
      subst hs
      simp only [div, hundred, if_neg hH, Bool.xor_false]
      exact le_inf_true _ (roundFrac_ne_nan _ _ _)
  | fin s a =>
    cases y with
    | nan => simp [le] at h
    | inf t =>
      have ht : t = false := by simpa [le] using h
      subst ht
      simp only [div, hundred, if_neg hH, Bool.xor_false]
      exact le_inf_false _ (roundFrac_ne_nan _ _ _)
    | fin t b =>
      have hab : toInt s a ≤ toInt t b := by simpa [le] using h
      simp only [div, hundred, if_neg hH, Bool.xor_false]
      apply roundFrac_le hpos hpos
      rw [toInt_mul, toInt_mul]
      have hP : (0 : Int) ≤ ((2 ^ 1074 : Nat) : Int) := Int.ofNat_nonneg _
      have hD : (0 : Int) ≤ ((100 * 2 ^ 1074 : Nat) : Int) := Int.ofNat_nonneg _
      exact Int.mul_le_mul_of_nonneg_right (Int.mul_le_mul_of_nonneg_right hab hP) hD

theorem mul_left_mono {p x y : F64} (hp : le zero p = true) (h : le x y = true)
    (hx : mul p x ≠ nan) (hy : mul p y ≠ nan) : le (mul p x) (mul p y) = true := by
  have hP : 0 < (2 : Nat) ^ 1074 := Nat.two_pow_pos 1074
  cases p with
  | nan => simp [le, zero] at hp
  | inf sp =>
    have hsp : sp = false := by simpa [le, zero] using hp
    subst hsp
    cases x with
    | nan => simp [le] at h
    | inf s =>
      cases y with
      | nan => simp [le] at h
      | inf t => simpa [mul] using h
      | fin t b =>
        have hs : s = true := by simpa [le] using h
        subst hs
        exact le_inf_true _ hy
    | fin s a =>
      cases y with
      | nan => simp [le] at h
      | inf t =>
        have ht : t = false := by simpa [le] using h
        subst ht
        exact le_inf_false _ hx
      | fin t b =>
        have hab : toInt s a ≤ toInt t b := by simpa [le] using h
        have ha : a ≠ 0 := by intro h0; simp [mul, h0] at hx
        have hb : b ≠ 0 := by intro h0; simp [mul, h0] at hy
        simp only [mul, if_neg ha, if_neg hb, Bool.false_xor]
        cases s <;> cases t <;> simp only [le, toInt, Bool.false_eq_true, if_false, if_true,
          Bool.not_false, Bool.not_true, Bool.or_true, Bool.or_false, Bool.true_or] at *
        omega
  | fin sp c =>
    have hc : 0 ≤ toInt sp c := by simpa [le, zero, toInt] using hp
    cases x with
    | nan => simp [le] at h
    | inf s =>
      have hc0 : c ≠ 0 := by intro h0; simp [mul, h0] at hx
      have hsp : sp = false := by
        cases sp
        · rfl
        · simp only [toInt, if_true] at hc; omega
      subst hsp
      cases y with
      | nan => simp [le] at h
      | inf t => simpa [mul, hc0] using h
      | fin t b =>
        have hs : s = true := by simpa [le] using h
        subst hs
        simp only [mul, if_neg hc0, Bool.false_xor]
        exact le_inf_true _ (roundFrac_ne_nan _ _ _)
    | fin s a =>
      cases y with
      | nan => simp [le] at h
      | inf t =>
        have hc0 : c ≠ 0 := by intro h0; simp [mul, h0] at hy
        have hsp : sp = false := by
          cases sp
          · rfl
          · simp only [toInt, if_true] at hc; omega
        subst hsp
        have ht : t = false := by simpa [le] using h
        subst ht
        simp only [mul, if_neg hc0, Bool.false_xor]
        exact le_inf_false _ (roundFrac_ne_nan _ _ _)
      | fin t b =>
        have hab : toInt s a ≤ toInt t b := by simpa [le] using h
        simp only [mul]
        apply roundFrac_le hP hP
        rw [toInt_xor_mul, toInt_xor_mul]
        exact Int.mul_le_mul_of_nonneg_right (Int.mul_le_mul_of_nonneg_left hab hc)
          (Int.ofNat_nonneg _)

theorem add_left_mono {c x y : F64} (h : le x y = true)
    (hx : add c x ≠ nan) (hy : add c y ≠ nan) : le (add c x) (add c y) = true := by
  cases c with
  | nan => exact absurd (add_nan_left x) hx
  | inf s =>
    have e1 : add (inf s) x = inf s := by
      cases x with
      | nan => exact absurd rfl hx
      | inf t =>
        by_cases hst : s = t
        · simp [add, hst]
        · simp [add, hst] at hx
      | fin t b => rfl
    have e2 : add (inf s) y = inf s := by
      cases y with
      | nan => exact absurd rfl hy
      | inf t =>
        by_cases hst : s = t
        · simp [add, hst]
        · simp [add, hst] at hy
      | fin t b => rfl
    rw [e1, e2, le_refl_inf]
  | fin s c =>
    cases x with
    | nan => simp [le] at h
    | inf u =>
      cases y with
      | nan => simp [le] at h
      | inf v => simpa [add] using h
      | fin t b =>
        have hu : u = true := by simpa [le] using h
        subst hu
        exact le_inf_true _ hy
    | fin u a =>
      cases y with
      | nan => simp [le] at h
      | inf v =>
        have hv : v = false := by simpa [le] using h
        subst hv
        exact le_inf_false _ hx
      | fin t b =>
        have hab : toInt u a ≤ toInt t b := by simpa [le] using h
        obtain ⟨σ1, n1, e1, r1⟩ := add_fin_eq s u c a
        obtain ⟨σ2, n2, e2, r2⟩ := add_fin_eq s t c b
        rw [e1, e2]
        apply roundFrac_le (by norm_num) (by norm_num)
        rw [r1, r2]
        simp only [Nat.cast_one, mul_one]
        omega

theorem add_right_mono {c x y : F64} (h : le x y = true)
    (hx : add x c ≠ nan) (hy : add y c ≠ nan) : le (add x c) (add y c) = true := by
  rw [add_comm x c] at hx ⊢
  rw [add_comm y c] at hy ⊢
  exact add_left_mono h hx hy

theorem le_zero_hundred : le zero hundred = true := by
  simp [le, zero, hundred, toInt]

theorem mul_hundred_mono {x y : F64} (h : le x y = true)
    (hx : mul x hundred ≠ nan) (hy : mul y hundred ≠ nan) :
    le (mul x hundred) (mul y hundred) = true := by
  rw [mul_comm x hundred] at hx ⊢
  rw [mul_comm y hundred] at hy ⊢
  exact mul_left_mono le_zero_hundred h hx hy

theorem roundUnits_mono {u v : Nat} (h : u ≤ v) :
    (2 * u + 2 ^ 1074) / 2 ^ 1075 * 2 ^ 1074 ≤ (2 * v + 2 ^ 1074) / 2 ^ 1075 * 2 ^ 1074 :=
  Nat.mul_le_mul_right _
    (Nat.div_le_div_right (Nat.add_le_add_right (Nat.mul_le_mul_left 2 h) _))

theorem roundUnits_zero : (2 * 0 + 2 ^ 1074) / 2 ^ 1075 * 2 ^ 1074 = 0 := by
  rw [Nat.div_eq_of_lt (by
    rw [Nat.mul_zero, Nat.zero_add]
    exact Nat.pow_lt_pow_right (by decide) (by decide))]
  exact Nat.zero_mul _

theorem round_mono {x y : F64} (h : le x y = true) : le (round x) (round y) = true := by
  cases x with
  | nan => exact absurd rfl (ne_nan_of_le_left h)
  | inf s =>
    cases y with
    | nan => exact absurd rfl (ne_nan_of_le_right h)
    | inf t => exact h
    | fin t b =>
      have hs : s = true := h
      subst hs
      rfl
  | fin s a =>
    cases y with
    | nan => exact absurd rfl (ne_nan_of_le_right h)
    | inf t =>
      have ht : (!t) = true := h
      exact ht
    | fin t b =>
      have hab : toInt s a ≤ toInt t b := of_decide_eq_true h
      have hm1 := @roundUnits_mono a b
      have hm2 := @roundUnits_mono b a
      have hz1 : a = 0 → (2 * a + 2 ^ 1074) / 2 ^ 1075 * 2 ^ 1074 = 0 := by
        intro h0; rw [h0]; exact roundUnits_zero
      have hz2 : b = 0 → (2 * b + 2 ^ 1074) / 2 ^ 1075 * 2 ^ 1074 = 0 := by
        intro h0; rw [h0]; exact roundUnits_zero
      simp only [round, le]
      apply decide_eq_true
      generalize (2 * a + 2 ^ 1074) / 2 ^ 1075 * 2 ^ 1074 = fa at hm1 hm2 hz1 ⊢
      generalize (2 * b + 2 ^ 1074) / 2 ^ 1075 * 2 ^ 1074 = fb at hm1 hm2 hz2 ⊢
      clear h
      cases s <;> cases t <;> simp only [toInt, Bool.false_eq_true, if_false, if_true] at hab ⊢ <;>
        omega

end F64

namespace F64

theorem le_of_lt {x y : F64} (h : lt x y = true) : le x y = true := by
  cases x with
  | nan => simp [lt] at h
  | inf s =>
    cases y with
    | nan => simp [lt] at h
    | inf t => cases s <;> cases t <;> simp_all [lt, le]
    | fin t b => simpa [lt, le] using h
  | fin s a =>
    cases y with
    | nan => simp [lt] at h
    | inf t => simpa [lt, le] using h
    | fin t b =>
      have hab : toInt s a < toInt t b := of_decide_eq_true h
      exact decide_eq_true (Int.le_of_lt hab)

theorem mul_hundred_ne_nan_of_cents {x : F64}
    (h : div (round (mul x hundred)) hundred ≠ nan) : mul x hundred ≠ nan := by
  intro hx
  apply h
  rw [hx, round_nan, div_nan_left]

/-- Rounding to two decimals, `round(x * 100.0) / 100.0`, preserves the order. -/
theorem cents_mono {x y : F64} (h : le x y = true)
    (hx : div (round (mul x hundred)) hundred ≠ nan)
    (hy : div (round (mul y hundred)) hundred ≠ nan) :
    le (div (round (mul x hundred)) hundred) (div (round (mul y hundred)) hundred) = true :=
  div_hundred_mono (round_mono (mul_hundred_mono h (mul_hundred_ne_nan_of_cents hx)
    (mul_hundred_ne_nan_of_cents hy)))

theorem ne_nan_of_cents {x : F64} (h : div (round (mul x hundred)) hundred ≠ nan) : x ≠ nan := by
  intro hx
  apply h
  rw [hx, mul_nan_left, round_nan, div_nan_left]

theorem ne_nan_of_add_left {x y : F64} (h : add x y ≠ nan) : x ≠ nan := by
  intro hx; apply h; rw [hx, add_nan_left]

theorem ne_nan_of_add_right {x y : F64} (h : add x y ≠ nan) : y ≠ nan := by
  intro hy; apply h; rw [hy, add_nan_right]

/-- The total does not decrease when the tax rate grows, unless a result is NaN. -/
theorem total_mono_tax {p t1 t2 f : F64} (hp : le zero p = true) (ht : le t1 t2 = true)
    (h1 : calculate_total_with_fees p t1 f ≠ nan)
    (h2 : calculate_total_with_fees p t2 f ≠ nan) :
    le (calculate_total_with_fees p t1 f) (calculate_total_with_fees p t2 f) = true := by
  simp only [calculate_total_with_fees] at h1 h2 ⊢
  have hw1 := ne_nan_of_cents h1
  have hw2 := ne_nan_of_cents h2
  have hs1 := ne_nan_of_add_left hw1
  have hs2 := ne_nan_of_add_left hw2
  have hx1 := ne_nan_of_add_right hs1
  have hx2 := ne_nan_of_add_right hs2
  exact cents_mono (add_right_mono (add_left_mono
    (mul_left_mono hp (div_hundred_mono ht) hx1 hx2) hs1 hs2) hw1 hw2) h1 h2

/-- The total does not decrease when the processing fee grows, unless a result is NaN. -/
theorem total_mono_fee {p t f1 f2 : F64} (hp : le zero p = true) (hf : le f1 f2 = true)
    (h1 : calculate_total_with_fees p t f1 ≠ nan)
    (h2 : calculate_total_with_fees p t f2 ≠ nan) :
    le (calculate_total_with_fees p t f1) (calculate_total_with_fees p t f2) = true := by
  simp only [calculate_total_with_fees] at h1 h2 ⊢
  have hw1 := ne_nan_of_cents h1
  have hw2 := ne_nan_of_cents h2
  have hx1 := ne_nan_of_add_right hw1
  have hx2 := ne_nan_of_add_right hw2
  exact cents_mono (add_left_mono
    (mul_left_mono hp (div_hundred_mono hf) hx1 hx2) hw1 hw2) h1 h2

end F64

/-- C9 (as amended): for every base price `p >= 0` the result of
`calculate_total_with_fees` is non-decreasing in the tax rate and in the
processing fee whenever neither of the two compared results is NaN; so for a
positive price a negative tax rate (or processing fee) gives a total that is
at most the total at a zero rate, whenever neither is NaN. -/
theorem total_with_fees_mono_rates :
    (∀ p t1 t2 f : F64, F64.le F64.zero p = true → F64.le t1 t2 = true →
      calculate_total_with_fees p t1 f ≠ F64.nan →
      calculate_total_with_fees p t2 f ≠ F64.nan →
      F64.le (calculate_total_with_fees p t1 f) (calculate_total_with_fees p t2 f) = true) ∧
    (∀ p t f1 f2 : F64, F64.le F64.zero p = true → F64.le f1 f2 = true →
      calculate_total_with_fees p t f1 ≠ F64.nan →
      calculate_total_with_fees p t f2 ≠ F64.nan →
      F64.le (calculate_total_with_fees p t f1) (calculate_total_with_fees p t f2) = true) ∧
    (∀ p t f : F64, F64.lt F64.zero p = true → F64.lt t F64.zero = true →
      calculate_total_with_fees p t f ≠ F64.nan →
      calculate_total_with_fees p F64.zero f ≠ F64.nan →
      F64.le (calculate_total_with_fees p t f) (calculate_total_with_fees p F64.zero f) = true) ∧
    (∀ p t f : F64, F64.lt F64.zero p = true → F64.lt f F64.zero = true →
      calculate_total_with_fees p t f ≠ F64.nan →
      calculate_total_with_fees p t F64.zero ≠ F64.nan →
      F64.le (calculate_total_with_fees p t f) (calculate_total_with_fees p t F64.zero) = true) :=
  ⟨fun _ _ _ _ hp ht h1 h2 => F64.total_mono_tax hp ht h1 h2,
    fun _ _ _ _ hp hf h1 h2 => F64.total_mono_fee hp hf h1 h2,
    fun _ _ _ hp ht h1 h2 => F64.total_mono_tax (F64.le_of_lt hp) (F64.le_of_lt ht) h1 h2,
    fun _ _ _ hp hf h1 h2 => F64.total_mono_fee (F64.le_of_lt hp) (F64.le_of_lt hf) h1 h2⟩

/-- Witness of C9 at the price `100`, the fee `2` and the tax rates `-5` and `0`. -/
theorem total_with_fees_mono_rates_witness :
    F64.lt F64.zero (F64.ofRatio false 100 1) = true ∧
      F64.lt (F64.ofRatio true 5 1) F64.zero = true ∧
      calculate_total_with_fees (F64.ofRatio false 100 1) (F64.ofRatio true 5 1)
        (F64.ofRatio false 2 1) = F64.ofRatio false 97 1 ∧
      calculate_total_with_fees (F64.ofRatio false 100 1) F64.zero
        (F64.ofRatio false 2 1) = F64.ofRatio false 102 1 ∧
      F64.le (calculate_total_with_fees (F64.ofRatio false 100 1) (F64.ofRatio true 5 1)
          (F64.ofRatio false 2 1))
        (calculate_total_with_fees (F64.ofRatio false 100 1) F64.zero
          (F64.ofRatio false 2 1)) = true :=
  ⟨by decide, by decide, by decide, by decide,
    total_with_fees_mono_rates.2.2.1 _ _ _ (by decide) (by decide) (by decide) (by decide)⟩

/-- C9 (as stated) fails: at the positive price `1e308`, the tax rate `-1e10` and the
fee `1e10` the tax overflows to `-inf` and the fee to `+inf`, the sum is NaN and
so is the result, while at the tax rate `0` the result is `+inf`: the total
with the negative rate is not `<=` the total with the zero rate. -/
theorem total_with_fees_mono_fails_at_overflow :
    F64.IsDouble (F64.ofRatio false (10 ^ 308) 1) ∧
    F64.lt F64.zero (F64.ofRatio false (10 ^ 308) 1) = true ∧
    F64.lt (F64.ofRatio true (10 ^ 10) 1) F64.zero = true ∧
    calculate_total_with_fees (F64.ofRatio false (10 ^ 308) 1) (F64.ofRatio true (10 ^ 10) 1)
      (F64.ofRatio false (10 ^ 10) 1) = F64.nan ∧
    calculate_total_with_fees (F64.ofRatio false (10 ^ 308) 1) F64.zero
      (F64.ofRatio false (10 ^ 10) 1) = F64.inf false ∧
    F64.le
      (calculate_total_with_fees (F64.ofRatio false (10 ^ 308) 1) (F64.ofRatio true (10 ^ 10) 1)
        (F64.ofRatio false (10 ^ 10) 1))
      (calculate_total_with_fees (F64.ofRatio false (10 ^ 308) 1) F64.zero
        (F64.ofRatio false (10 ^ 10) 1)) = false := by
  refine ⟨by decide, by decide, by decide, by decide, by decide, by decide⟩

namespace F64

theorem sub_nan_left (y : F64) : sub nan y = nan := add_nan_left _

theorem sub_nan_right (x : F64) : sub x nan = nan := add_nan_right _

end F64

/-- C11 (as amended): a NaN discount percent always gives NaN, and a NaN
original price gives NaN for every discount percent that is not `>= 100`
(it is returned as it is for `d <= 0` and propagates through the arithmetic for
`0 < d < 100` and for a NaN `d`); for `d >= 100` the result is `0.0` whatever
the price, NaN included. -/
theorem discounted_price_nan :
    (∀ d : F64, F64.ge d F64.hundred = false →
      (calculate_discounted_price F64.nan d).isNaN = true) ∧
    (∀ d : F64, F64.ge d F64.hundred = true →
      calculate_discounted_price F64.nan d = F64.zero) ∧
    (∀ p : F64, (calculate_discounted_price p F64.nan).isNaN = true) := by
  refine ⟨?_, ?_, ?_⟩
  · intro d h
    rw [F64.isNaN_iff]
    by_cases h0 : F64.le d F64.zero = true
    · simp only [calculate_discounted_price, h0, if_true]
    · simp only [calculate_discounted_price, h0, h, Bool.false_eq_true, if_false,
        F64.mul_nan_left, F64.sub_nan_left, F64.round_nan, F64.div_nan_left]
  · intro d h
    simp only [calculate_discounted_price, F64.le_zero_eq_false_of_ge h, h, Bool.false_eq_true,
      if_false, if_true]
  · intro p
    rw [F64.isNaN_iff]
    have h0 : F64.le F64.nan F64.zero = false := rfl
    have h1 : F64.ge F64.nan F64.hundred = false := rfl
    simp only [calculate_discounted_price, h0, h1, Bool.false_eq_true, if_false,
      F64.div_nan_left, F64.mul_nan_right, F64.sub_nan_right, F64.mul_nan_left, F64.round_nan]

/-- Witness of C11 at `calculate_discounted_price(NaN, 25)`. -/
theorem discounted_price_nan_witness :
    F64.ge (F64.ofRatio false 25 1) F64.hundred = false ∧
      (calculate_discounted_price F64.nan (F64.ofRatio false 25 1)).isNaN = true :=
  ⟨by decide, discounted_price_nan.1 _ (by decide)⟩

/-- C11 (as stated) fails: `calculate_discounted_price(NaN, 150)` returns `0.0`, not
NaN, because the guard `discount_percent >= 100` returns before the price is
used. -/
theorem discounted_price_nan_fails_at_high_discount :
    calculate_discounted_price F64.nan (F64.ofRatio false 150 1) = F64.zero ∧
      (calculate_discounted_price F64.nan (F64.ofRatio false 150 1)).isNaN = false := by
  refine ⟨by decide, by decide⟩

/-! ## Representability of rounded results and sign symmetry of the operations -/

theorem rne_shift_le (n d : Nat) (hd : 0 < d) :
    rne n (d * 2 ^ (bitLen (n / d) - 53)) ≤ 2 ^ 53 := by
  have hL : bitLen (n / d) ≤ 53 + (bitLen (n / d) - 53) := by omega
  generalize bitLen (n / d) - 53 = sh at *
  have p1 : 0 < d * 2 ^ sh := Nat.mul_pos hd (Nat.two_pow_pos sh)
  have u1 : n / d < 2 ^ (53 + sh) :=
    Nat.lt_of_lt_of_le (lt_two_pow_bitLen _) (Nat.pow_le_pow_right (by decide) hL)
  have u2 : n < 2 ^ (53 + sh) * d := (Nat.div_lt_iff_lt_mul hd).mp u1
  apply rne_le_of_le p1
  rw [pow_add] at u2
  rw [show 2 ^ 53 * (d * 2 ^ sh) = 2 ^ 53 * 2 ^ sh * d by ring]
  exact Nat.le_of_lt u2

/-- A rounded magnitude is a multiple of the unit in the last place of its binade. -/
theorem roundMag_mod (n d : Nat) (hd : 0 < d) :
    roundMag n d % 2 ^ (bitLen (roundMag n d) - 53) = 0 := by
  have hm := rne_shift_le n d hd
  apply Nat.mod_eq_zero_of_dvd
  simp only [roundMag]
  generalize bitLen (n / d) - 53 = sh at *
  generalize rne n (d * 2 ^ sh) = m at *
  rcases Nat.lt_or_ge m (2 ^ 53) with hlt | hge
  · have hz : m * 2 ^ sh < 2 ^ (53 + sh) := by
      rw [pow_add]
      exact Nat.mul_lt_mul_of_pos_right hlt (Nat.two_pow_pos sh)
    have hb := bitLen_le_of_lt hz
    exact Nat.dvd_trans (pow_dvd_pow 2 (by omega)) (Nat.dvd_mul_left _ _)
  · have hm2 : m = 2 ^ 53 := Nat.le_antisymm hm hge
    subst hm2
    rw [← pow_add]
    have hz : 2 ^ (53 + sh) < 2 ^ (54 + sh) :=
      Nat.pow_lt_pow_right (by decide) (by omega)
    have hb := bitLen_le_of_lt hz
    exact pow_dvd_pow 2 (by omega)

namespace F64

theorem roundFrac_isDouble (s : Bool) (n d : Nat) (hd : 0 < d) : IsDouble (roundFrac s n d) := by
  simp only [roundFrac]
  split
  · trivial
  · rename_i h
    exact ⟨Nat.lt_of_not_le h, roundMag_mod n d hd⟩

theorem neg_roundFrac (s : Bool) (n d : Nat) : neg (roundFrac s n d) = roundFrac (!s) n d := by
  simp only [roundFrac]
  split <;> rfl

theorem mul_neg_right (x y : F64) : mul x (neg y) = neg (mul x y) := by
  cases x with
  | nan => cases y <;> rfl
  | inf s =>
    cases y with
    | nan => rfl
    | inf t => cases s <;> cases t <;> rfl
    | fin t b =>
      simp only [mul, neg]
      split
      · rfl
      · cases s <;> cases t <;> rfl
  | fin s a =>
    cases y with
    | nan => rfl
    | inf t =>
      simp only [mul, neg]
      split
      · rfl
      · cases s <;> cases t <;> rfl
    | fin t b =>
      show roundFrac (xor s (!t)) (a * b) (2 ^ 1074) =
        neg (roundFrac (xor s t) (a * b) (2 ^ 1074))
      rw [neg_roundFrac]
      cases s <;> cases t <;> rfl

theorem mul_neg_left (x y : F64) : mul (neg x) y = neg (mul x y) := by
  rw [mul_comm, mul_neg_right, mul_comm]

theorem div_neg_hundred (x : F64) : div (neg x) hundred = neg (div x hundred) := by
  have hH : 100 * 2 ^ 1074 ≠ 0 := Nat.pos_iff_ne_zero.mp hundred_units_pos
  cases x with
  | nan => rfl
  | inf s => cases s <;> rfl
  | fin s a =>
    have e1 : div (neg (fin s a)) hundred = roundFrac (!s) (a * 2 ^ 1074) (100 * 2 ^ 1074) := by
      simp only [div, neg, hundred, if_neg hH, Bool.xor_false]
    have e2 : div (fin s a) hundred = roundFrac s (a * 2 ^ 1074) (100 * 2 ^ 1074) := by
      simp only [div, hundred, if_neg hH, Bool.xor_false]
    rw [e1, e2, neg_roundFrac]

theorem round_neg (x : F64) : round (neg x) = neg (round x) := by
  cases x <;> rfl

/-- Adding a zero to a nonzero finite double returns that double. -/
theorem add_fin_zero_of_ne (s t : Bool) (z : Nat) (hz : IsDouble (fin s z)) (h0 : z ≠ 0) :
    add (fin s z) (fin t 0) = fin s z := by
  have hexact := roundFrac_exact s 1 (by decide) hz
  rw [Nat.mul_one] at hexact
  have ht : toInt t 0 = 0 := toInt_zero t
  cases s
  · have hr : ¬ (toInt false z + toInt t 0 = 0) := by
      rw [ht]; simp only [toInt, Bool.false_eq_true, if_false]; omega
    have hneg : decide (toInt false z + toInt t 0 < 0) = false := by
      rw [ht, decide_eq_false_iff_not]
      simp only [toInt, Bool.false_eq_true, if_false]; omega
    have habs : (toInt false z + toInt t 0).natAbs = z := by
      rw [ht]; simp [toInt]
    simp only [add, if_neg hr, hneg, habs]
    exact hexact
  · have hr : ¬ (toInt true z + toInt t 0 = 0) := by
      rw [ht]; simp only [toInt, if_true]; omega
    have hneg : decide (toInt true z + toInt t 0 < 0) = true := by
      rw [ht, decide_eq_true_eq]
      simp only [toInt, if_true]; omega
    have habs : (toInt true z + toInt t 0).natAbs = z := by
      rw [ht]; simp [toInt]
    simp only [add, if_neg hr, hneg, habs]
    exact hexact

theorem roundMag_pos {n : Nat} (hn : n ≠ 0) : roundMag n 1 ≠ 0 := by
  have h1 : roundMag (1 * 1) 1 = 1 :=
    @roundMag_exact 1 0 1 (by decide) (bitLen_le_of_lt (by decide)) (by simp)
  have h2 : roundMag (1 * 1) 1 ≤ roundMag n 1 :=
    roundMag_mono (by decide) (by decide) (by omega)
  omega

/-- A sum with a finite first operand absorbs a further zero of that operand's sign. -/
theorem add_add_zero (sp : Bool) (c : Nat) (y : F64) :
    add (add (fin sp c) y) (fin sp 0) = add (fin sp c) y := by
  cases y with
  | nan => rfl
  | inf t => rfl
  | fin t b =>
    by_cases hr : toInt sp c + toInt t b = 0
    · have e : add (fin sp c) (fin t b) = fin (sp && t) 0 := by
        simp only [add, hr, if_true]
      rw [e]
      cases sp <;> cases t <;> simp [add, toInt]
    · have e : add (fin sp c) (fin t b) =
          roundFrac (decide (toInt sp c + toInt t b < 0)) (toInt sp c + toInt t b).natAbs 1 := by
        simp only [add, if_neg hr]
      rw [e]
      have hd := roundFrac_isDouble (decide (toInt sp c + toInt t b < 0))
        (toInt sp c + toInt t b).natAbs 1 (by decide)
      have hn : (toInt sp c + toInt t b).natAbs ≠ 0 := by omega
      have hpos := roundMag_pos hn
      rcases roundFrac_cases (decide (toInt sp c + toInt t b < 0))
        (toInt sp c + toInt t b).natAbs 1 with h | h
      · rw [h]; rfl
      · rw [h] at hd ⊢
        exact add_fin_zero_of_ne _ _ _ hd hpos

end F64

namespace F64

/-- A positive discount percent below `100` is a finite positive double. -/
theorem pos_lt_hundred_cases {d : F64} (h0 : lt zero d = true) (h100 : lt d hundred = true) :
    ∃ a : Nat, d = fin false a := by
  cases d with
  | nan => simp [lt] at h100
  | inf t =>
    cases t
    · simp [lt, hundred] at h100
    · simp [lt, zero] at h0
  | fin sd a =>
    cases sd
    · exact ⟨a, rfl⟩
    · have h : toInt false 0 < toInt true a := of_decide_eq_true h0
      simp only [toInt, Bool.false_eq_true, if_false, if_true] at h
      omega

/-- An infinite price minus its discount at a rate of sign `+` is NaN. -/
theorem sub_inf_mul_nonneg (s : Bool) (n d : Nat) :
    add (inf s) (neg (mul (inf s) (roundFrac false n d))) = nan := by
  rcases roundFrac_cases false n d with h | h
  · rw [h]; cases s <;> rfl
  · rw [h]
    by_cases hm : roundMag n d = 0
    · simp only [mul, hm, if_true]; rfl
    · simp only [mul, if_neg hm]
      cases s <;> rfl

/-- The zero-rate fee term leaves the discounted amount unchanged. -/
theorem discount_add_zero_fee {p d : F64} (h0 : lt zero d = true) (h100 : lt d hundred = true) :
    add (add p (neg (mul p (div d hundred)))) (mul p zero) =
      add p (neg (mul p (div d hundred))) := by
  cases p with
  | nan => rw [add_nan_left, add_nan_left]
  | inf s =>
    obtain ⟨a, rfl⟩ := pos_lt_hundred_cases h0 h100
    have hH : 100 * 2 ^ 1074 ≠ 0 := Nat.pos_iff_ne_zero.mp hundred_units_pos
    have e : div (fin false a) hundred = roundFrac false (a * 2 ^ 1074) (100 * 2 ^ 1074) := by
      simp only [div, hundred, if_neg hH, Bool.xor_false]
    rw [e, sub_inf_mul_nonneg, add_nan_left]
  | fin sp c =>
    rw [mul_fin_zero, add_add_zero]

end F64

/-- C13: for every original price `p` and every discount percent `d` with
`0 < d < 100`, `calculate_discounted_price(p, d)` is the same double as
`calculate_total_with_fees(p, -d, 0)`. -/
theorem discounted_price_eq_total_neg_rate (p d : F64) (h0 : F64.lt F64.zero d = true)
    (h100 : F64.lt d F64.hundred = true) :
    calculate_discounted_price p d = calculate_total_with_fees p (F64.neg d) F64.zero := by
  simp only [calculate_discounted_price, calculate_total_with_fees,
    F64.le_zero_eq_false_of_lt h0, F64.ge_hundred_eq_false_of_lt h100, Bool.false_eq_true,
    if_false, F64.div_neg_hundred, F64.mul_neg_right, F64.div_zero_hundred,
    F64.discount_add_zero_fee h0 h100, F64.sub]

/-- Witness of C13 at `calculate_discounted_price(19.99, 15)`. -/
theorem discounted_price_eq_total_neg_rate_witness :
    F64.lt F64.zero (F64.ofRatio false 15 1) = true ∧
      F64.lt (F64.ofRatio false 15 1) F64.hundred = true ∧
      calculate_discounted_price (F64.ofRatio false 1999 100) (F64.ofRatio false 15 1) =
        calculate_total_with_fees (F64.ofRatio false 1999 100)
          (F64.neg (F64.ofRatio false 15 1)) F64.zero :=
  ⟨by decide, by decide, discounted_price_eq_total_neg_rate _ _ (by decide) (by decide)⟩

/-! ## Equality as numbers -/

namespace F64

theorem toInt_not (s : Bool) (a : Nat) : toInt (!s) a = -toInt s a := by
  cases s <;> simp [toInt]

theorem sameValue_iff (x y : F64) :
    sameValue x y = true ↔ x = y ∨ ∃ s t, x = fin s 0 ∧ y = fin t 0 := by
  cases x with
  | nan => cases y <;> simp [sameValue]
  | inf s =>
    cases y with
    | nan => simp [sameValue]
    | inf t => simp [sameValue]
    | fin t b => simp [sameValue]
  | fin s a =>
    cases y with
    | nan => simp [sameValue]
    | inf t => simp [sameValue]
    | fin t b =>
      simp only [sameValue, decide_eq_true_eq]
      constructor
      · intro h
        cases s <;> cases t <;> simp only [toInt, Bool.false_eq_true, if_false, if_true] at h
        · left; congr 1; omega
        · right; exact ⟨false, true, by congr 1; omega, by congr 1; omega⟩
        · right; exact ⟨true, false, by congr 1; omega, by congr 1; omega⟩
        · left; congr 1; omega
      · rintro (h | ⟨s', t', h1, h2⟩)
        · injection h with hs ha
          rw [hs, ha]
        · injection h1 with _ ha
          injection h2 with _ hb
          rw [ha, hb, toInt_zero, toInt_zero]

theorem sameValue_refl (x : F64) : sameValue x x = true :=
  (sameValue_iff x x).mpr (Or.inl rfl)

theorem sameValue_zeros (s t : Bool) : sameValue (fin s 0) (fin t 0) = true :=
  (sameValue_iff _ _).mpr (Or.inr ⟨s, t, rfl, rfl⟩)

theorem sameValue_trans {x y z : F64} (h1 : sameValue x y = true) (h2 : sameValue y z = true) :
    sameValue x z = true := by
  rw [sameValue_iff] at h1 h2 ⊢
  rcases h1 with h1 | ⟨s, t, hx, hy⟩
  · rw [h1]; exact h2
  · rcases h2 with h2 | ⟨s', t', _, hz⟩
    · rw [← h2]; exact Or.inr ⟨s, t, hx, hy⟩
    · exact Or.inr ⟨s, t', hx, hz⟩

/-- Negating both terms negates the sum, up to the sign of a zero sum. -/
theorem add_neg_neg (x y : F64) : sameValue (add (neg x) (neg y)) (neg (add x y)) = true := by
  cases x with
  | nan => rw [show neg nan = nan from rfl, add_nan_left, add_nan_left]; rfl
  | inf s =>
    cases y with
    | nan => rfl
    | inf t => cases s <;> cases t <;> rfl
    | fin t b => exact sameValue_refl _
  | fin s a =>
    cases y with
    | nan => rfl
    | inf t => exact sameValue_refl _
    | fin t b =>
      have e : toInt (!s) a + toInt (!t) b = -(toInt s a + toInt t b) := by
        rw [toInt_not, toInt_not]; ring
      by_cases hr : toInt s a + toInt t b = 0
      · have e1 : add (neg (fin s a)) (neg (fin t b)) = fin (!s && !t) 0 := by
          simp only [neg, add, e, hr, neg_zero, if_true]
        have e2 : add (fin s a) (fin t b) = fin (s && t) 0 := by
          simp only [add, hr, if_true]
        rw [e1, e2]
        exact sameValue_zeros _ _
      · have hr' : ¬ (-(toInt s a + toInt t b) = 0) := by omega
        have e1 : add (neg (fin s a)) (neg (fin t b)) =
            roundFrac (decide (-(toInt s a + toInt t b) < 0))
              (-(toInt s a + toInt t b)).natAbs 1 := by
          simp only [neg, add, e, if_neg hr']
        have e2 : add (fin s a) (fin t b) =
            roundFrac (decide (toInt s a + toInt t b < 0)) (toInt s a + toInt t b).natAbs 1 := by
          simp only [add, if_neg hr]
        have e3 : decide (-(toInt s a + toInt t b) < 0) =
            !decide (toInt s a + toInt t b < 0) := by
          generalize toInt s a + toInt t b = r at hr
          by_cases h : r < 0
          · have h' : ¬ (-r < 0) := by omega
            simp [h, h']
          · have h' : -r < 0 := by omega
            simp [h, h']
        rw [e1, e2, neg_roundFrac, e3, Int.natAbs_neg]
        exact sameValue_refl _

theorem add_congr_left {x x' : F64} (y : F64) (h : sameValue x x' = true) :
    sameValue (add x y) (add x' y) = true := by
  rcases (sameValue_iff _ _).mp h with h | ⟨s, t, hx, hx'⟩
  · rw [h]; exact sameValue_refl _
  · rw [hx, hx']
    cases y with
    | nan => rfl
    | inf u => exact sameValue_refl _
    | fin u b =>
      by_cases hb : toInt u b = 0
      · have e1 : add (fin s 0) (fin u b) = fin (s && u) 0 := by
          simp only [add, toInt_zero, hb, add_zero, if_true]
        have e2 : add (fin t 0) (fin u b) = fin (t && u) 0 := by
          simp only [add, toInt_zero, hb, add_zero, if_true]
        rw [e1, e2]
        exact sameValue_zeros _ _
      · have e1 : add (fin s 0) (fin u b) =
            roundFrac (decide (toInt u b < 0)) (toInt u b).natAbs 1 := by
          simp only [add, toInt_zero, zero_add, if_neg hb]
        have e2 : add (fin t 0) (fin u b) =
            roundFrac (decide (toInt u b < 0)) (toInt u b).natAbs 1 := by
          simp only [add, toInt_zero, zero_add, if_neg hb]
        rw [e1, e2]
        exact sameValue_refl _

/-- Rounding a zero of either sign to two decimals gives that zero. -/
theorem cents_zero (s : Bool) : div (round (mul (fin s 0) hundred)) hundred = fin s 0 := by
  have hH : 100 * 2 ^ 1074 ≠ 0 := Nat.pos_iff_ne_zero.mp hundred_units_pos
  have e1 : mul (fin s 0) hundred = fin s 0 := by
    simp only [mul, hundred, Nat.zero_mul, Bool.xor_false]
    exact roundFrac_zero s _ (Nat.two_pow_pos 1074)
  have e2 : round (fin s 0) = fin s 0 := by
    simp only [round]
    rw [roundUnits_zero]
  have e3 : div (fin s 0) hundred = fin s 0 := by
    simp only [div, hundred, if_neg hH, Nat.zero_mul, Bool.xor_false]
    exact roundFrac_zero s _ hundred_units_pos
  rw [e1, e2, e3]

theorem cents_congr {x x' : F64} (h : sameValue x x' = true) :
    sameValue (div (round (mul x hundred)) hundred) (div (round (mul x' hundred)) hundred) =
      true := by
  rcases (sameValue_iff _ _).mp h with h | ⟨s, t, hx, hx'⟩
  · rw [h]; exact sameValue_refl _
  · rw [hx, hx', cents_zero, cents_zero]
    exact sameValue_zeros _ _

theorem cents_neg (x : F64) :
    div (round (mul (neg x) hundred)) hundred = neg (div (round (mul x hundred)) hundred) := by
  rw [mul_neg_left, round_neg, div_neg_hundred]

end F64

/-- C15 (as amended): negating the price negates the result as a number: for
every `p`, `t`, `f`, `calculate_total_with_fees(-p, t, f)` and
`-calculate_total_with_fees(p, t, f)` are the same double, except that a zero
result may carry either sign (and both are NaN together); likewise
`calculate_discounted_price(-p, d)` and `-calculate_discounted_price(p, d)`
for every `p` and every discount percent `d`. -/
theorem negated_price_negates_result :
    (∀ p t f : F64,
      F64.sameValue (calculate_total_with_fees (F64.neg p) t f)
        (F64.neg (calculate_total_with_fees p t f)) = true) ∧
    (∀ p d : F64,
      F64.sameValue (calculate_discounted_price (F64.neg p) d)
        (F64.neg (calculate_discounted_price p d)) = true) := by
  constructor
  · intro p t f
    simp only [calculate_total_with_fees, F64.mul_neg_left]
    rw [← F64.cents_neg]
    apply F64.cents_congr
    exact F64.sameValue_trans (F64.add_congr_left _ (F64.add_neg_neg _ _)) (F64.add_neg_neg _ _)
  · intro p d
    by_cases h0 : F64.le d F64.zero = true
    · simp only [calculate_discounted_price, h0, if_true]
      exact F64.sameValue_refl _
    · by_cases h1 : F64.ge d F64.hundred = true
      · simp only [calculate_discounted_price, h0, h1, if_true, Bool.false_eq_true, if_false]
        rfl
      · simp only [calculate_discounted_price, h0, h1, Bool.false_eq_true, if_false,
          F64.mul_neg_left, F64.sub]
        rw [← F64.cents_neg]
        exact F64.cents_congr (F64.add_neg_neg _ _)

/-- C15 (as stated) fails on the sign of a zero result:
`calculate_discounted_price(-50, 150)` is `+0.0` while
`-calculate_discounted_price(50, 150)` is `-0.0`, and
`calculate_total_with_fees(-1, -100, 0)` is `+0.0` while
`-calculate_total_with_fees(1, -100, 0)` is `-0.0`. -/
theorem negated_price_differs_in_zero_sign :
    calculate_discounted_price (F64.neg (F64.ofRatio false 50 1)) (F64.ofRatio false 150 1) =
      F64.fin false 0 ∧
    F64.neg (calculate_discounted_price (F64.ofRatio false 50 1) (F64.ofRatio false 150 1)) =
      F64.fin true 0 ∧
    calculate_discounted_price (F64.neg (F64.ofRatio false 50 1)) (F64.ofRatio false 150 1) ≠
      F64.neg (calculate_discounted_price (F64.ofRatio false 50 1) (F64.ofRatio false 150 1)) ∧
    calculate_total_with_fees (F64.neg (F64.ofRatio false 1 1)) (F64.ofRatio true 100 1)
      F64.zero = F64.fin false 0 ∧
    F64.neg (calculate_total_with_fees (F64.ofRatio false 1 1) (F64.ofRatio true 100 1)
      F64.zero) = F64.fin true 0 := by
  refine ⟨by decide, by decide, by decide, by decide, by decide⟩

/-! ## The discounted price as a function of the discount -/

namespace F64

theorem neg_antitone {x y : F64} (h : le x y = true) : le (neg y) (neg x) = true := by
  cases x with
  | nan => simp [le] at h
  | inf s =>
    cases y with
    | nan => simp [le] at h
    | inf t => cases s <;> cases t <;> simp_all [le, neg]
    | fin t b =>
      have hs : s = true := h
      subst hs
      rfl
  | fin s a =>
    cases y with
    | nan => simp [le] at h
    | inf t =>
      have ht : (!t) = true := h
      cases t
      · rfl
      · simp at ht
    | fin t b =>
      have hab : toInt s a ≤ toInt t b := of_decide_eq_true h
      apply decide_eq_true
      rw [toInt_not, toInt_not]
      omega

theorem pos_of_pos_le {d1 d2 : F64} (h0 : lt zero d1 = true) (h : le d1 d2 = true) :
    lt zero d2 = true := by
  cases d1 with
  | nan => simp [le] at h
  | inf s =>
    cases s
    · cases d2 with
      | nan => simp [le] at h
      | inf t => cases t <;> simp_all [le, lt, zero]
      | fin t b => simp [le] at h
    · simp [lt, zero] at h0
  | fin s a =>
    have ha : toInt false 0 < toInt s a := of_decide_eq_true h0
    cases d2 with
    | nan => simp [le] at h
    | inf t => cases t <;> simp_all [le, lt, zero]
    | fin t b =>
      have hab : toInt s a ≤ toInt t b := of_decide_eq_true h
      exact decide_eq_true (Int.lt_of_lt_of_le ha hab)

theorem ge_hundred_of_le {d1 d2 : F64} (h : le d1 d2 = true) (h1 : ge d1 hundred = true) :
    ge d2 hundred = true := by
  cases d1 with
  | nan => simp [le] at h
  | inf s =>
    cases s
    · cases d2 with
      | nan => simp [le] at h
      | inf t => cases t <;> simp_all [le, ge, hundred]
      | fin t b => simp [le] at h
    · simp [ge, le, hundred] at h1
  | fin s a =>
    have ha : toInt false (100 * 2 ^ 1074) ≤ toInt s a := of_decide_eq_true h1
    cases d2 with
    | nan => simp [le] at h
    | inf t => cases t <;> simp_all [le, ge, hundred]
    | fin t b =>
      have hab : toInt s a ≤ toInt t b := of_decide_eq_true h
      exact decide_eq_true (Int.le_trans ha hab)

theorem lt_hundred_of_not_ge {d : F64} (hne : d ≠ nan) (h : ge d hundred = false) :
    lt d hundred = true := by
  cases d with
  | nan => exact absurd rfl hne
  | inf s => cases s <;> simp_all [le, lt, ge, hundred]
  | fin s a =>
    have ha : ¬ (toInt false (100 * 2 ^ 1074) ≤ toInt s a) := of_decide_eq_false h
    exact decide_eq_true (Int.lt_of_not_ge ha)

theorem add_fin_ne_nan (s : Bool) (a : Nat) {y : F64} (hy : y ≠ nan) :
    add (fin s a) y ≠ nan := by
  cases y with
  | nan => exact absurd rfl hy
  | inf t => exact F64.noConfusion
  | fin t b =>
    obtain ⟨σ, n, e, _⟩ := add_fin_eq s t a b
    rw [e]
    exact roundFrac_ne_nan _ _ _

theorem cents_ne_nan {x : F64} (hx : x ≠ nan) : div (round (mul x hundred)) hundred ≠ nan := by
  have hH : 100 * 2 ^ 1074 ≠ 0 := Nat.pos_iff_ne_zero.mp hundred_units_pos
  have key : ∀ y : F64, y ≠ nan → div (round y) hundred ≠ nan := by
    intro y hy
    cases y with
    | nan => exact absurd rfl hy
    | inf t => exact F64.noConfusion
    | fin t b =>
      simp only [round, div, hundred, if_neg hH]
      exact roundFrac_ne_nan _ _ _
  apply key
  cases x with
  | nan => exact absurd rfl hx
  | inf s =>
    simp only [mul, hundred, if_neg hH]
    exact F64.noConfusion
  | fin s a =>
    simp only [mul, hundred]
    exact roundFrac_ne_nan _ _ _

theorem div_hundred_hundred : div hundred hundred = fin false (2 ^ 1074) := by decide

theorem mul_fin_one (s : Bool) (c : Nat) (hc : IsDouble (fin s c)) :
    mul (fin s c) (fin false (2 ^ 1074)) = fin s c := by
  simp only [mul, Bool.xor_false]
  exact roundFrac_exact s _ (Nat.two_pow_pos 1074) hc

theorem add_neg_self (s : Bool) (c : Nat) : add (fin s c) (neg (fin s c)) = zero := by
  have e : toInt s c + toInt (!s) c = 0 := by rw [toInt_not]; omega
  simp only [neg, add, e, if_true, zero]
  cases s <;> rfl

/-- The amount before rounding, `p - p * (d / 100.0)`, for a finite price `p >= 0`
and `0 < d < 100`: not NaN and not below zero. -/
theorem discounted_amount_nonneg {sp : Bool} {c : Nat} {d : F64}
    (hc : IsDouble (fin sp c)) (hp : le zero (fin sp c) = true)
    (h0 : lt zero d = true) (h100 : lt d hundred = true) :
    sub (fin sp c) (mul (fin sp c) (div d hundred)) ≠ nan ∧
      le zero (sub (fin sp c) (mul (fin sp c) (div d hundred))) = true := by
  have hu0 : le zero (div d hundred) = true := by
    have := div_hundred_mono (le_of_lt h0)
    rwa [div_zero_hundred] at this
  have hu1 : le (div d hundred) (fin false (2 ^ 1074)) = true := by
    have := div_hundred_mono (le_of_lt h100)
    rwa [div_hundred_hundred] at this
  have hune : div d hundred ≠ nan := ne_nan_of_le_left hu1
  have hdisc_ne : mul (fin sp c) (div d hundred) ≠ nan := by
    obtain ⟨a, rfl⟩ := pos_lt_hundred_cases h0 h100
    have hH : 100 * 2 ^ 1074 ≠ 0 := Nat.pos_iff_ne_zero.mp hundred_units_pos
    have e : div (fin false a) hundred = roundFrac false (a * 2 ^ 1074) (100 * 2 ^ 1074) := by
      simp only [div, hundred, if_neg hH, Bool.xor_false]
    rw [e] at hu1 ⊢
    rcases roundFrac_cases false (a * 2 ^ 1074) (100 * 2 ^ 1074) with h | h
    · rw [h] at hu1; simp [le] at hu1
    · rw [h]
      simp only [mul]
      exact roundFrac_ne_nan _ _ _
  have hone_ne : mul (fin sp c) (fin false (2 ^ 1074)) ≠ nan := by
    rw [mul_fin_one sp c hc]; exact F64.noConfusion
  have hle : le (mul (fin sp c) (div d hundred)) (fin sp c) = true := by
    have := mul_left_mono hp hu1 hdisc_ne hone_ne
    rwa [mul_fin_one sp c hc] at this
  have hx_ne : add (fin sp c) (neg (mul (fin sp c) (div d hundred))) ≠ nan := by
    apply add_fin_ne_nan
    intro hn
    apply hdisc_ne
    cases hm : mul (fin sp c) (div d hundred) with
    | nan => rfl
    | inf t => rw [hm] at hn; exact F64.noConfusion hn
    | fin t b => rw [hm] at hn; exact F64.noConfusion hn
  refine ⟨hx_ne, ?_⟩
  have hself_ne : add (fin sp c) (neg (fin sp c)) ≠ nan := by
    rw [add_neg_self]; exact F64.noConfusion
  have := add_left_mono (neg_antitone hle) hself_ne hx_ne
  rwa [add_neg_self] at this

/-- The amount before rounding does not grow with the discount percent. -/
theorem discounted_amount_antitone {sp : Bool} {c : Nat} {d1 d2 : F64}
    (hc : IsDouble (fin sp c)) (hp : le zero (fin sp c) = true)
    (h1 : lt zero d1 = true) (h12 : le d1 d2 = true) (h2 : lt d2 hundred = true)
    (h1' : lt d1 hundred = true) :
    le (sub (fin sp c) (mul (fin sp c) (div d2 hundred)))
      (sub (fin sp c) (mul (fin sp c) (div d1 hundred))) = true := by
  have h2pos := pos_of_pos_le h1 h12
  have n1 := (discounted_amount_nonneg hc hp h1 h1').1
  have n2 := (discounted_amount_nonneg hc hp h2pos h2).1
  have m1 : mul (fin sp c) (div d1 hundred) ≠ nan := by
    intro hn; apply n1; rw [hn]; rfl
  have m2 : mul (fin sp c) (div d2 hundred) ≠ nan := by
    intro hn; apply n2; rw [hn]; rfl
  exact add_left_mono (neg_antitone (mul_left_mono hp (div_hundred_mono h12) m1 m2)) n2 n1

end F64

namespace F64

theorem ne_nan_of_lt_right {x y : F64} (h : lt x y = true) : y ≠ nan := by
  intro hy; subst hy; cases x <;> simp [lt] at h

/-- The discounted price of a finite price `p >= 0` at a positive discount is not below zero. -/
theorem discounted_price_nonneg {sp : Bool} {c : Nat} {d : F64}
    (hc : IsDouble (fin sp c)) (hp : le zero (fin sp c) = true) (h0 : lt zero d = true) :
    le zero (calculate_discounted_price (fin sp c) d) = true := by
  have hz := le_zero_eq_false_of_lt h0
  by_cases hg : ge d hundred = true
  · simp only [calculate_discounted_price, hz, hg, if_true, Bool.false_eq_true, if_false]
    rfl
  · have hg' : ge d hundred = false := by simpa using hg
    have h100 := lt_hundred_of_not_ge (ne_nan_of_lt_right h0) hg'
    obtain ⟨hne, hle⟩ := discounted_amount_nonneg hc hp h0 h100
    simp only [calculate_discounted_price, hz, hg', Bool.false_eq_true, if_false]
    have := cents_mono hle (by rw [zero, cents_zero]; exact F64.noConfusion) (cents_ne_nan hne)
    rwa [zero, cents_zero] at this

end F64

/-- C16 (as amended): for every finite original price `p >= 0` and all discount
percents `d1`, `d2` with `0 < d1 <= d2`,
`calculate_discounted_price(p, d2) <= calculate_discounted_price(p, d1)`,
also when `d2 >= 100` clamps the price to zero; and every such result is
`>= 0`. -/
theorem discounted_price_antitone_discount (sp : Bool) (c : Nat)
    (hc : F64.IsDouble (F64.fin sp c)) (hp : F64.le F64.zero (F64.fin sp c) = true) :
    (∀ d1 d2 : F64, F64.lt F64.zero d1 = true → F64.le d1 d2 = true →
      F64.le (calculate_discounted_price (F64.fin sp c) d2)
        (calculate_discounted_price (F64.fin sp c) d1) = true) ∧
    (∀ d : F64, F64.lt F64.zero d = true →
      F64.le F64.zero (calculate_discounted_price (F64.fin sp c) d) = true) := by
  refine ⟨?_, fun d h0 => F64.discounted_price_nonneg hc hp h0⟩
  intro d1 d2 h1 h12
  have h2 := F64.pos_of_pos_le h1 h12
  have hz1 := F64.le_zero_eq_false_of_lt h1
  have hz2 := F64.le_zero_eq_false_of_lt h2
  by_cases hg2 : F64.ge d2 F64.hundred = true
  · have hnn := F64.discounted_price_nonneg hc hp h1
    have e : calculate_discounted_price (F64.fin sp c) d2 = F64.zero := by
      simp only [calculate_discounted_price, hz2, hg2, if_true, Bool.false_eq_true, if_false]
    rw [e]
    exact hnn
  · have hg2' : F64.ge d2 F64.hundred = false := by simpa using hg2
    have hg1' : F64.ge d1 F64.hundred = false := by
      cases hg1 : F64.ge d1 F64.hundred with
      | false => rfl
      | true => exact absurd (F64.ge_hundred_of_le h12 hg1) hg2
    have l1 := F64.lt_hundred_of_not_ge (F64.ne_nan_of_lt_right h1) hg1'
    have l2 := F64.lt_hundred_of_not_ge (F64.ne_nan_of_lt_right h2) hg2'
    have n1 := (F64.discounted_amount_nonneg hc hp h1 l1).1
    have n2 := (F64.discounted_amount_nonneg hc hp h2 l2).1
    simp only [calculate_discounted_price, hz1, hz2, hg1', hg2', Bool.false_eq_true, if_false]
    exact F64.cents_mono (F64.discounted_amount_antitone hc hp h1 h12 l2 l1)
      (F64.cents_ne_nan n2) (F64.cents_ne_nan n1)

/-- Witness of C16 at the price `19.99` and the discounts `15` and `150`, across the clamp. -/
theorem discounted_price_antitone_discount_witness :
    F64.ofRatio false 1999 100 = F64.fin false (5626684784446013 * 2 ^ 1026) ∧
      F64.IsDouble (F64.fin false (5626684784446013 * 2 ^ 1026)) ∧
      F64.le F64.zero (F64.fin false (5626684784446013 * 2 ^ 1026)) = true ∧
      F64.lt F64.zero (F64.ofRatio false 15 1) = true ∧
      F64.le (F64.ofRatio false 15 1) (F64.ofRatio false 150 1) = true ∧
      F64.le
        (calculate_discounted_price (F64.fin false (5626684784446013 * 2 ^ 1026))
          (F64.ofRatio false 150 1))
        (calculate_discounted_price (F64.fin false (5626684784446013 * 2 ^ 1026))
          (F64.ofRatio false 15 1)) = true :=
  ⟨by decide, by decide, by decide, by decide, by decide,
    (discounted_price_antitone_discount false (5626684784446013 * 2 ^ 1026) (by decide)
      (by decide)).1 _ _ (by decide) (by decide)⟩

/-- C16 (as stated) fails at the price `+inf`, which is `>= 0`:
`calculate_discounted_price(+inf, 50)` and `calculate_discounted_price(+inf, 25)`
are NaN (`inf - inf`), so neither is `<=` the other and neither is `>= 0`. -/
theorem discounted_price_antitone_fails_at_infinity :
    F64.le F64.zero (F64.inf false) = true ∧
    F64.lt F64.zero (F64.ofRatio false 25 1) = true ∧
    F64.le (F64.ofRatio false 25 1) (F64.ofRatio false 50 1) = true ∧
    calculate_discounted_price (F64.inf false) (F64.ofRatio false 50 1) = F64.nan ∧
    F64.le (calculate_discounted_price (F64.inf false) (F64.ofRatio false 50 1))
      (calculate_discounted_price (F64.inf false) (F64.ofRatio false 25 1)) = false ∧
    F64.le F64.zero (calculate_discounted_price (F64.inf false) (F64.ofRatio false 50 1)) =
      false := by
  refine ⟨by decide, by decide, by decide, by decide, by decide, by decide⟩

/-! ## Calls depend on their arguments only -/

/-- C12: both functions are deterministic mappings of their arguments.  Run in
any two machine states, that is with any contents of the variables a call could
reach besides its arguments, a call with identical arguments returns the
identical result; the call leaves the machine state as it found it, so nothing
is carried from one call to the next; and the result is the value of the
state-free function of the arguments used in the other claims. -/
theorem calls_depend_on_arguments_only :
    (∀ (m m' : Machine) (b t f : F64),
      (m.calculate_total_with_fees b t f).1 = (m'.calculate_total_with_fees b t f).1 ∧
        (m.calculate_total_with_fees b t f).2 = m ∧
        (m.calculate_total_with_fees b t f).1 = calculate_total_with_fees b t f) ∧
    (∀ (m m' : Machine) (p d : F64),
      (m.calculate_discounted_price p d).1 = (m'.calculate_discounted_price p d).1 ∧
        (m.calculate_discounted_price p d).2 = m ∧
        (m.calculate_discounted_price p d).1 = calculate_discounted_price p d) := by
  have total : ∀ (m : Machine) (b t f : F64),
      (m.calculate_total_with_fees b t f).1 = calculate_total_with_fees b t f := by
    intro m b t f
    simp [Machine.calculate_total_with_fees, calculate_total_with_fees, Machine.read,
      Machine.declare, Machine.enter]
  have disc : ∀ (m : Machine) (p d : F64),
      (m.calculate_discounted_price p d).1 = calculate_discounted_price p d := by
    intro m p d
    simp only [Machine.calculate_discounted_price, calculate_discounted_price]
    have hd : (((m.enter.declare "original_price" p).declare "discount_percent" d).read
        "discount_percent") = d := by
      simp [Machine.read, Machine.declare]
    have hp : (((m.enter.declare "original_price" p).declare "discount_percent" d).read
        "original_price") = p := by
      simp [Machine.read, Machine.declare, Machine.enter]
    rw [hd, hp]
    split
    · rfl
    · split
      · rfl
      · simp [Machine.read, Machine.declare, Machine.enter]
  constructor
  · intro m m' b t f
    refine ⟨by rw [total, total], ?_, total m b t f⟩
    simp [Machine.calculate_total_with_fees, Machine.leave, Machine.declare, Machine.enter]
  · intro m m' p d
    refine ⟨by rw [disc, disc], ?_, disc m p d⟩
    simp only [Machine.calculate_discounted_price]
    split
    · simp [Machine.leave, Machine.declare, Machine.enter]
    · split <;> simp [Machine.leave, Machine.declare, Machine.enter]

/-! ## The error of one rounding -/

namespace F64

end F64

namespace F64

end F64

